import Mathlib

/-!
Verification of the botox-di dependency-injection resolver
(`src/botox/injector.py`) against its natural-language specification.

The Python module is shallowly embedded below:

* `Token` models the type tokens used as registry keys: either a plain
  class, or a parameterized container pseudo-type (`List[...]`,
  `Tuple[...]`, `Set[...]`, i.e. a token with an `__origin__`).
* `Value` models the Python values produced by deliveries.
* `Injection` models the five `Injection` subclasses; `PyClass` and
  `PyFunction` model the reflection data the source reads
  (`__init__.__annotations__`, `__code__.co_argcount`, `__annotations__`).
* `findPathAux` models `Injector._find_path` (the breadth-first planner);
  nontermination of the Python loop is modelled with explicit fuel:
  `Option.none` means the loop is still running after `fuel` iterations.
* `execPath` / `runPath` model the body of `Injector.deliver` (the reverse
  walk over the plan), and `deliverOnce` models `deliver` on a fresh
  injector (empty plan cache).
* Exceptions are modelled by `PyError` in `Except` results.
-/

/-- A dependency token: a plain class (identified by a numeric id), or a
parameterized container type such as `List[T]` (which has an `__origin__`). -/
inductive Token where
  | plain (id : Nat)
  | listOf (elem : Token)
  | tupleOf (elem : Token)
  | setOf (elem : Token)
deriving DecidableEq

/-- The container kind stored in a `SequenceInjection` as
`_sequence_data_type` (`list`, `tuple`, `set`, or a custom sequence type). -/
inductive SeqKind where
  | list
  | tuple
  | set
  | custom (tag : Nat)
deriving DecidableEq

/-- Python runtime values as far as the resolver observes them:
class instances (`obj tag args`: instance of the class identified by `tag`,
constructed with the positional arguments `args`), results of
factory-function calls (`call tag args`), containers built by sequence
injections (`coll kind elems`), opaque constants (`fixed n`) and `None`. -/
inductive Value where
  | obj (tag : Nat) (args : List Value)
  | call (tag : Nat) (args : List Value)
  | coll (kind : SeqKind) (elems : List Value)
  | fixed (n : Nat)
  | pylist (ts : List Token)
  | none

mutual

/-- Decidable equality for `Value` (the nested `List Value` prevents
automatic derivation). -/
def decEqValue : (a b : Value) → Decidable (a = b)
  | .obj t1 a1, .obj t2 a2 =>
    if ht : t1 = t2 then
      match decEqValueList a1 a2 with
      | isTrue h => isTrue (by rw [ht, h])
      | isFalse h => isFalse (by intro he; cases he; exact h rfl)
    else isFalse (by intro he; cases he; exact ht rfl)
  | .call t1 a1, .call t2 a2 =>
    if ht : t1 = t2 then
      match decEqValueList a1 a2 with
      | isTrue h => isTrue (by rw [ht, h])
      | isFalse h => isFalse (by intro he; cases he; exact h rfl)
    else isFalse (by intro he; cases he; exact ht rfl)
  | .coll k1 e1, .coll k2 e2 =>
    if hk : k1 = k2 then
      match decEqValueList e1 e2 with
      | isTrue h => isTrue (by rw [hk, h])
      | isFalse h => isFalse (by intro he; cases he; exact h rfl)
    else isFalse (by intro he; cases he; exact hk rfl)
  | .fixed n1, .fixed n2 =>
    if hn : n1 = n2 then isTrue (by rw [hn])
    else isFalse (by intro he; cases he; exact hn rfl)
  | .pylist t1, .pylist t2 =>
    if ht : t1 = t2 then isTrue (by rw [ht])
    else isFalse (by intro he; cases he; exact ht rfl)
  | .none, .none => isTrue rfl
  | .obj _ _, .pylist _ => isFalse (fun h => Value.noConfusion h)
  | .call _ _, .pylist _ => isFalse (fun h => Value.noConfusion h)
  | .coll _ _, .pylist _ => isFalse (fun h => Value.noConfusion h)
  | .fixed _, .pylist _ => isFalse (fun h => Value.noConfusion h)
  | .none, .pylist _ => isFalse (fun h => Value.noConfusion h)
  | .pylist _, .obj _ _ => isFalse (fun h => Value.noConfusion h)
  | .pylist _, .call _ _ => isFalse (fun h => Value.noConfusion h)
  | .pylist _, .coll _ _ => isFalse (fun h => Value.noConfusion h)
  | .pylist _, .fixed _ => isFalse (fun h => Value.noConfusion h)
  | .pylist _, .none => isFalse (fun h => Value.noConfusion h)
  | .obj _ _, .call _ _ => isFalse (fun h => Value.noConfusion h)
  | .obj _ _, .coll _ _ => isFalse (fun h => Value.noConfusion h)
  | .obj _ _, .fixed _ => isFalse (fun h => Value.noConfusion h)
  | .obj _ _, .none => isFalse (fun h => Value.noConfusion h)
  | .call _ _, .obj _ _ => isFalse (fun h => Value.noConfusion h)
  | .call _ _, .coll _ _ => isFalse (fun h => Value.noConfusion h)
  | .call _ _, .fixed _ => isFalse (fun h => Value.noConfusion h)
  | .call _ _, .none => isFalse (fun h => Value.noConfusion h)
  | .coll _ _, .obj _ _ => isFalse (fun h => Value.noConfusion h)
  | .coll _ _, .call _ _ => isFalse (fun h => Value.noConfusion h)
  | .coll _ _, .fixed _ => isFalse (fun h => Value.noConfusion h)
  | .coll _ _, .none => isFalse (fun h => Value.noConfusion h)
  | .fixed _, .obj _ _ => isFalse (fun h => Value.noConfusion h)
  | .fixed _, .call _ _ => isFalse (fun h => Value.noConfusion h)
  | .fixed _, .coll _ _ => isFalse (fun h => Value.noConfusion h)
  | .fixed _, .none => isFalse (fun h => Value.noConfusion h)
  | .none, .obj _ _ => isFalse (fun h => Value.noConfusion h)
  | .none, .call _ _ => isFalse (fun h => Value.noConfusion h)
  | .none, .coll _ _ => isFalse (fun h => Value.noConfusion h)
  | .none, .fixed _ => isFalse (fun h => Value.noConfusion h)

/-- Decidable equality for lists of `Value`. -/
def decEqValueList : (as bs : List Value) → Decidable (as = bs)
  | [], [] => isTrue rfl
  | [], _ :: _ => isFalse (fun h => List.noConfusion h)
  | _ :: _, [] => isFalse (fun h => List.noConfusion h)
  | a :: as, b :: bs =>
    match decEqValue a b with
    | isTrue h1 =>
      match decEqValueList as bs with
      | isTrue h2 => isTrue (by rw [h1, h2])
      | isFalse h2 => isFalse (by intro he; cases he; exact h2 rfl)
    | isFalse h1 => isFalse (by intro he; cases he; exact h1 rfl)

end

instance : DecidableEq Value := decEqValue

/-- Reflection view of a Python class as `ClassInjection` reads it:
its identity `tag`, whether `__init__` differs from `object.__init__`,
and `__init__.__annotations__` as an ordered name/token list (only
annotated parameters appear; the mapping may contain a `"return"` entry,
and would contain a `"self"` entry if `self` were explicitly annotated). -/
structure PyClass where
  tag : Nat
  hasCustomInit : Bool
  initAnns : List (String × Token)
deriving DecidableEq

/-- Reflection view of a plain function or bound method as the source reads
it: `params` are the positional parameter names (`__code__.co_argcount =
params.length`) and `anns` is `__annotations__` as an ordered name/token
list (only annotated names appear; it may contain a `"return"` entry). -/
structure PyFunction where
  tag : Nat
  params : List String
  anns : List (String × Token)
deriving DecidableEq

/-- The five `Injection` subclasses.  `value` stores the constant of a
`ValueInjection`; `lam` stores the (pure) return value of a
`LambdaInjection`'s zero-argument lambda; `cls` and `func` store the
reflected class / function; `seq` stores a `SequenceInjection`'s container
kind and explicit element-token list. -/
inductive Injection where
  | value (v : Value)
  | lam (ret : Value)
  | cls (c : PyClass)
  | func (f : PyFunction)
  | seq (kind : SeqKind) (tokens : List Token)
deriving DecidableEq

/-- `ClassInjection.ingredients`: empty when `__init__ is object.__init__`,
otherwise the token of every `__init__.__annotations__` entry whose name is
not `"return"`, in declaration order. -/
def classIngredients (c : PyClass) : List Token :=
  if c.hasCustomInit then
    (c.initAnns.filter (fun p => p.1 ≠ "return")).map (fun p => p.2)
  else []

/-- `FunctionInjection.ingredients`: the token of every `__annotations__`
entry whose name is not `"return"`, in declaration order. -/
def functionIngredients (f : PyFunction) : List Token :=
  (f.anns.filter (fun p => p.1 ≠ "return")).map (fun p => p.2)

/-- The `ingredients` property of each `Injection` subclass. -/
def Injection.ingredients : Injection → List Token
  | .value _ => []
  | .lam _ => []
  | .cls c => classIngredients c
  | .func f => functionIngredients f
  | .seq _ tokens => tokens

/-- The `deliver` method of each `Injection` subclass, as a pure function
of the already-resolved dependency list:
`ValueInjection` returns its stored value, `LambdaInjection` invokes its
zero-argument lambda, `ClassInjection` constructs the class with the
dependencies positionally, `FunctionInjection` invokes the function with
them positionally, and `SequenceInjection` builds a container of its kind
from them. -/
def Injection.deliverFn : Injection → List Value → Value
  | .value v, _ => v
  | .lam ret, _ => ret
  | .cls c, deps => .obj c.tag deps
  | .func f, deps => .call f.tag deps
  | .seq kind _, deps => .coll kind deps

/-- The `Injector._injections` dictionary.  Assignment prepends, lookup
returns the most recent binding — observationally the same as a Python
dict for `get`/`[]=`. -/
abbrev Registry := List (Token × Injection)

/-- `self._injections.get(token, None)`. -/
def findInjection : Registry → Token → Option Injection
  | [], _ => Option.none
  | (k, i) :: rest, t => if k = t then some i else findInjection rest t

/-- `self._injections[token] = injection`. -/
def regSet (reg : Registry) (t : Token) (i : Injection) : Registry :=
  (t, i) :: reg

/-- The Python exceptions the embedded code can raise. -/
inductive PyError where
  | deliveryError
  | preparationError
  | attributeError
  | typeError
  | indexError
deriving DecidableEq

/-- One entry of a `DependencyPath`: `(argn, deliver)`.  The second
component models the stored `injection.deliver` bound method; `none`
models the literal Python `None` appended by the non-strict placeholder
branch. -/
abbrev Step := Nat × Option Injection

/-- `Injector._find_path`, with explicit fuel bounding the number of
loop iterations.  `Option.none` means the `while queue:` loop has not
finished within `fuel` iterations (the Python loop would still be
running); `some r` is the function's outcome, either the finished path
or a raised exception.

Source loop body: pop the front token; look up its injection; if absent
then in strict mode raise `DeliveryError`, otherwise append `(0, None)`
and — because the branch does not `continue` — fall through to
`ingredients = injection.ingredients` with `injection = None`, which
raises `AttributeError` (the partially built path is discarded by the
propagating exception); if present, append
`(len(ingredients), injection.deliver)` and push the ingredients onto the
back of the queue in declared order. -/
def findPathAux (reg : Registry) (strict : Bool) :
    Nat → List Token → List Step → Option (Except PyError (List Step))
  | _, [], path => some (Except.ok path)
  | 0, _ :: _, _ => Option.none
  | fuel + 1, t :: queue, path =>
    match findInjection reg t with
    | Option.none =>
      if strict then some (Except.error PyError.deliveryError)
      else
        -- `path.append((0, None))` happens here, then the fall-through
        -- `injection.ingredients` on `None` raises AttributeError,
        -- discarding the path.
        some (Except.error PyError.attributeError)
    | some inj =>
      findPathAux reg strict fuel (queue ++ inj.ingredients)
        (path ++ [(inj.ingredients.length, some inj)])

/-- `Injector._find_path(token, strict)` started on the root token. -/
def findPath (reg : Registry) (t : Token) (strict : Bool) (fuel : Nat) :
    Option (Except PyError (List Step)) :=
  findPathAux reg strict fuel [t] []

/-- The loop of `Injector.deliver`:
`for argn, deliver in reversed(path): instances.append(deliver(reversed(instances[index:index+argn]))); index += argn`.
Takes the already-reversed step list; returns the final `instances` and
`index`.  A `none` deliver entry (the Python `None` placeholder) is not
callable: calling it raises `TypeError`. -/
def execSteps : List Step → List Value → Nat → Except PyError (List Value × Nat)
  | [], instances, index => Except.ok (instances, index)
  | (argn, d) :: rest, instances, index =>
    match d with
    | Option.none => Except.error PyError.typeError
    | some inj =>
      execSteps rest
        (instances ++ [inj.deliverFn (((instances.drop index).take argn).reverse)])
        (index + argn)

/-- The body of `Injector.deliver` once a path is available: walk the path
in reverse and return `instances[-1]` (raising `IndexError` on an empty
list, as Python indexing would). -/
def runPath (path : List Step) : Except PyError Value :=
  match execSteps path.reverse [] 0 with
  | Except.error e => Except.error e
  | Except.ok (instances, _) =>
    match instances.getLast? with
    | Option.none => Except.error PyError.indexError
    | some v => Except.ok v

/-- `Injector.deliver(token, strict)` on a fresh injector (whose plan
cache is empty, so `_find_path` runs): `Option.none` if `_find_path` is
still running after `fuel` iterations, otherwise the delivered value or
the raised exception. -/
def deliverOnce (reg : Registry) (t : Token) (strict : Bool) (fuel : Nat) :
    Option (Except PyError Value) :=
  match findPath reg t strict fuel with
  | Option.none => Option.none
  | some (Except.error e) => some (Except.error e)
  | some (Except.ok path) => some (runPath path)

/-- The shapes of Python objects that can be passed to `Injector.prepare`
as `value`, distinguished exactly the way the source's `elif` chain
distinguishes them: an `Injection` instance, a list of tokens, a class,
a lambda (with its `co_argcount` and pure return value), a bound method,
a plain function, `None`, or any other object. -/
inductive PySource where
  | injection (i : Injection)
  | tokens (ts : List Token)
  | pyclass (c : PyClass)
  | pylambda (argc : Nat) (ret : Value)
  | method (f : PyFunction)
  | function (f : PyFunction)
  | none
  | other (v : Value)
deriving DecidableEq

/-- The element-token list a `SequenceInjection` receives as its `_tokens`
argument when `prepare` hits one of the parameterized-container branches.
(If `value` is not actually a list of tokens the Python code would store
the object unchanged and only misbehave later when iterating it; that
degenerate corner is modelled as the empty list.) -/
def asTokenList : PySource → List Token
  | .tokens ts => ts
  | _ => []

/-- The `elif` chain of `Injector.prepare` that infers an `Injection` from
the `(token, value)` pair, in source order: an `Injection` value is used
as-is; a token with a `List`/`Tuple`/`Set` origin yields a
`SequenceInjection` of the corresponding container kind; then a class
yields `ClassInjection(value)`; a lambda yields `LambdaInjection` but
raises `PreparationError` when `value.__code__.co_argcount` is nonzero;
a bound method yields `FunctionInjection`; a plain function yields
`FunctionInjection` but raises `PreparationError` when it has positional
arguments (`co_argcount` nonzero) and `len(__annotations__)` is zero;
`None` yields `ClassInjection(token)` (`env` maps a plain token id to the
class it denotes); anything else is wrapped in a `ValueInjection`. -/
def inferInjection (env : Nat → PyClass) (token : Token) (value : PySource) :
    Except PyError Injection :=
  match value, token with
  | .injection i, _ => Except.ok i
  | v, .listOf _ => Except.ok (.seq .list (asTokenList v))
  | v, .tupleOf _ => Except.ok (.seq .tuple (asTokenList v))
  | v, .setOf _ => Except.ok (.seq .set (asTokenList v))
  | .pyclass c, .plain _ => Except.ok (.cls c)
  | .pylambda argc ret, .plain _ =>
    if argc ≠ 0 then Except.error PyError.preparationError
    else Except.ok (.lam ret)
  | .method f, .plain _ => Except.ok (.func f)
  | .function f, .plain _ =>
    if f.params.length ≠ 0 ∧ f.anns.length = 0 then
      Except.error PyError.preparationError
    else Except.ok (.func f)
  | .none, .plain id => Except.ok (.cls (env id))
  | .tokens ts, .plain _ => Except.ok (.value (.pylist ts))
  | .other v, .plain _ => Except.ok (.value v)

/-- `functools.lru_cache()`'s default maximum size. -/
def lruMaxsize : Nat := 128

/-- The memoized-plan cache produced by wrapping `_find_path` in
`lru_cache()`: an association list from `(token, strict)` keys to plans,
kept in most-recently-used-first order. -/
abbrev PlanCache := List ((Token × Bool) × List Step)

/-- Cache lookup for a `(token, strict)` key. -/
def cacheLookup : PlanCache → Token × Bool → Option (List Step)
  | [], _ => Option.none
  | (k, v) :: rest, key => if k = key then some v else cacheLookup rest key

/-- On a hit, `lru_cache` moves the entry to the most-recently-used
position. -/
def cacheTouch (c : PlanCache) (key : Token × Bool) : PlanCache :=
  match cacheLookup c key with
  | some v => (key, v) :: c.filter (fun e => e.1 ≠ key)
  | Option.none => c

/-- On a miss, `lru_cache` stores the new entry and evicts the
least-recently-used entry once the cache exceeds `lruMaxsize` entries. -/
def cacheInsert (c : PlanCache) (key : Token × Bool) (v : List Step) : PlanCache :=
  ((key, v) :: c).take lruMaxsize

/-- `Injector.deliver(token, strict)` against an explicit registry and
plan cache: `self._find_path_method(token, strict)` first consults the
cache under the `(token, strict)` key; on a hit the memoized plan is
executed without recomputation (and the entry is marked most recently
used); on a miss `_find_path` runs against the current registry, its
result is cached only on success (`lru_cache` does not cache raised
exceptions), and the plan is executed. -/
def deliverCached (reg : Registry) (cache : PlanCache) (t : Token) (strict : Bool)
    (fuel : Nat) : Option (Except PyError Value) × PlanCache :=
  match cacheLookup cache (t, strict) with
  | some path => (some (runPath path), cacheTouch cache (t, strict))
  | Option.none =>
    match findPath reg t strict fuel with
    | Option.none => (Option.none, cache)
    | some (Except.error e) => (some (Except.error e), cache)
    | some (Except.ok path) => (some (runPath path), cacheInsert cache (t, strict) path)

/-- The mutable state of an `Injector` object: its `_injections` dict and
the cache of its `_find_path_method`. -/
structure Injector where
  injections : Registry
  cache : PlanCache
deriving DecidableEq

/-- `Injector()`: empty registry, fresh empty plan cache. -/
def newInjector : Injector := ⟨[], []⟩

/-- `Injector.prepare_injection`: validates that the argument is an
`Injection` instance (raising `PreparationError` otherwise, with the
registry untouched), then assigns `self._injections[token] = injection`. -/
def Injector.prepare_injection (s : Injector) (t : Token) (v : PySource) :
    Except PyError Unit × Injector :=
  match v with
  | .injection i => (Except.ok (), { s with injections := regSet s.injections t i })
  | _ => (Except.error PyError.preparationError, s)

/-- `Injector.prepare`: runs the inference chain (`inferInjection`) and
hands the resulting injection to `prepare_injection`; an exception raised
by the chain propagates before any mutation. -/
def Injector.prepare (env : Nat → PyClass) (s : Injector) (t : Token) (v : PySource) :
    Except PyError Unit × Injector :=
  match inferInjection env t v with
  | Except.error e => (Except.error e, s)
  | Except.ok i => s.prepare_injection t (.injection i)

/-- `Injector.deliver` on an injector object: resolves against the
object's registry using and updating the object's plan cache. -/
def Injector.deliver (s : Injector) (t : Token) (strict : Bool) (fuel : Nat) :
    Option (Except PyError Value) × Injector :=
  match deliverCached s.injections s.cache t strict fuel with
  | (r, cache) => (r, { s with cache := cache })

mutual

/-- Reference definition, written from the spec's description of
resolution (§4.3/§4.4 and the ordering guarantee in §8): the value
delivered for a token is obtained by looking up its injection, resolving
each declared ingredient token recursively *in declared order*, and
passing the resolved values positionally to the injection's deliver step.
`fuel` bounds the recursion depth; `Option.none` means the bound was hit
or a token was unconfigured. -/
def resolveSpec (reg : Registry) : Nat → Token → Option Value
  | 0, _ => Option.none
  | fuel + 1, t =>
    match findInjection reg t with
    | Option.none => Option.none
    | some inj =>
      match resolveMany reg fuel inj.ingredients with
      | Option.none => Option.none
      | some args => some (inj.deliverFn args)
termination_by fuel _t => (fuel, 0)

/-- Resolves a list of tokens in order at the given depth bound. -/
def resolveMany (reg : Registry) : Nat → List Token → Option (List Value)
  | _, [] => some []
  | fuel, t :: ts =>
    match resolveSpec reg fuel t, resolveMany reg fuel ts with
    | some v, some vs => some (v :: vs)
    | _, _ => Option.none
termination_by fuel ts => (fuel, ts.length + 1)

end

/-- `Resolves reg t v`: the spec-side resolution of `t` produces `v` at
some finite depth. -/
def Resolves (reg : Registry) (t : Token) (v : Value) : Prop :=
  ∃ fuel, resolveSpec reg fuel t = some v

/-- One edge of the dependency graph: token `t` is configured and
declares `u` among its injection's ingredient tokens. -/
inductive ReqStep (reg : Registry) : Token → Token → Prop where
  | mk (t u : Token) (inj : Injection) :
      findInjection reg t = some inj → u ∈ inj.ingredients → ReqStep reg t u

/-- `Requires reg t u`: `u` is `t` itself or a transitively required
ingredient token of `t`. -/
inductive Requires (reg : Registry) : Token → Token → Prop where
  | refl (t : Token) : Requires reg t t
  | head (t u w : Token) : ReqStep reg t u → Requires reg u w → Requires reg t w

/-- Full configuration: every transitively required token of `t` has a
registered injection. -/
def FullyConfigured (reg : Registry) (t : Token) : Prop :=
  ∀ u, Requires reg t u → (findInjection reg u).isSome

/-- `rank` witnesses acyclicity of the dependency graph reachable from
`t0`: it strictly decreases along every dependency edge out of a token
reachable from `t0`. -/
def RankDesc (reg : Registry) (t0 : Token) (rank : Token → Nat) : Prop :=
  ∀ x u, Requires reg t0 x → ReqStep reg x u → rank u < rank x

/-- The dependency graph of `t` reaches a token that lies on a dependency
cycle. -/
def ReachesCycle (reg : Registry) (t : Token) : Prop :=
  ∃ c u, Requires reg t c ∧ ReqStep reg c u ∧ Requires reg u c

/-- Proof-side shorthand: the declared ingredient tokens of `t`'s
injection (empty if `t` is unconfigured). -/
def ingrOf (reg : Registry) (t : Token) : List Token :=
  match findInjection reg t with
  | some inj => inj.ingredients
  | Option.none => []

/-- Proof-side shorthand: the plan step `_find_path` emits for a
configured token `t` (the unconfigured case never survives into a
successfully built plan). -/
def stepOf (reg : Registry) (t : Token) : Step :=
  match findInjection reg t with
  | some inj => (inj.ingredients.length, some inj)
  | Option.none => (0, Option.none)

/-- Proof-side shorthand: the value `t`'s injection delivers from the
argument list `ws`. -/
def deliverAt (reg : Registry) (t : Token) (ws : List Value) : Value :=
  match findInjection reg t with
  | some inj => inj.deliverFn ws
  | Option.none => Value.none

/-- Proof-side shorthand for the executor invariant: the segment of the
(reversed) results buffer corresponding to a reversed list of
(root, child-values) pairs. -/
def midOf (L : List (Token × List Value)) : List Value :=
  (L.map (fun p => p.2.reverse)).flatten

/-- The number of nodes in the dependency expansion of `t` up to depth
`f` (exact once `f` bounds the expansion depth; used as a termination
measure for the breadth-first planner). -/
def sizeB (reg : Registry) : Nat → Token → Nat
  | 0, _ => 1
  | f + 1, t => 1 + ((ingrOf reg t).map (fun u => sizeB reg f u)).sum

/-- Reading of claim C8's words "the token for each constructor parameter
(excluding self and the return annotation) in declaration order", as a
filter of the constructor annotations that drops both the `"return"` and
the `"self"` entries.  For comparison against `classIngredients`, which
the source computes. -/
def claimedClassIngredients (c : PyClass) : List Token :=
  if c.hasCustomInit then
    (c.initAnns.filter (fun p => p.1 ≠ "return" ∧ p.1 ≠ "self")).map (fun p => p.2)
  else []

/-- Reading of claim C7's words: the function "has positional parameters
but no type annotations on any of them".  For comparison against the
source's actual test `co_argcount and not len(__annotations__)`. -/
def claimedFunctionRejected (f : PyFunction) : Prop :=
  f.params ≠ [] ∧ ∀ p ∈ f.params, p ∉ f.anns.map (fun a => a.1)

instance (f : PyFunction) : Decidable (claimedFunctionRejected f) := by
  unfold claimedFunctionRejected; infer_instance

/-!
Allocation-instrumented model, used for the container-freshness claim:
identical to the pure model except that every `SequenceInjection.deliver`
allocates its result container at a fresh address in a store, so that
object identity and mutation of containers become expressible.
-/

/-- Values of the allocation-instrumented executor.  A container built by
a `SequenceInjection` is a reference `ref addr` into the store; all other
values are kept structural (`pureColl` embeds a container constant held
by a `ValueInjection`, whose identity the model does not track). -/
inductive AValue where
  | obj (tag : Nat) (args : List AValue)
  | call (tag : Nat) (args : List AValue)
  | pureColl (kind : SeqKind) (elems : List AValue)
  | fixed (n : Nat)
  | pylist (ts : List Token)
  | none
  | ref (addr : Nat)

mutual

/-- Embeds a pure `Value` (as stored by `ValueInjection`/`LambdaInjection`)
into the allocation-instrumented value type. -/
def AValue.ofValue : Value → AValue
  | .obj t as => .obj t (AValue.ofValueList as)
  | .call t as => .call t (AValue.ofValueList as)
  | .coll k es => .pureColl k (AValue.ofValueList es)
  | .fixed n => .fixed n
  | .pylist ts => .pylist ts
  | .none => .none

/-- Embeds a list of pure `Value`s. -/
def AValue.ofValueList : List Value → List AValue
  | [] => []
  | v :: vs => AValue.ofValue v :: AValue.ofValueList vs

end

/-- The heap of containers built by sequence injections: an allocation
counter and an association list from addresses to container contents
(kind and element list), newest first. -/
structure Store where
  next : Nat
  mem : List (Nat × (SeqKind × List AValue))

/-- Lookup of a container's current contents. -/
def memLookup : List (Nat × (SeqKind × List AValue)) → Nat → Option (SeqKind × List AValue)
  | [], _ => Option.none
  | (a, c) :: rest, addr => if a = addr then some c else memLookup rest addr

/-- In-place mutation of the container at address `a` (e.g. Python's
`container.pop(0)` on a delivered list), leaving the allocator untouched. -/
def storeMutate (s : Store) (a : Nat) (c : SeqKind × List AValue) : Store :=
  ⟨s.next, (a, c) :: s.mem⟩

/-- `Injection.deliver` in the allocation-instrumented model:
`SequenceInjection.deliver` evaluates `self._sequence_data_type(dependencies)`,
constructing a *new* container object — modelled as allocating a fresh
address and storing the element list there; every other variant delivers
the same value as the pure model. -/
def deliverA : Injection → List AValue → Store → AValue × Store
  | .value v, _, s => (AValue.ofValue v, s)
  | .lam ret, _, s => (AValue.ofValue ret, s)
  | .cls c, deps, s => (.obj c.tag deps, s)
  | .func f, deps, s => (.call f.tag deps, s)
  | .seq kind _, deps, s => (.ref s.next, ⟨s.next + 1, (s.next, (kind, deps)) :: s.mem⟩)

/-- The loop of `Injector.deliver`, allocation-instrumented. -/
def execStepsA : List Step → List AValue → Nat → Store → Except PyError (List AValue × Nat × Store)
  | [], instances, index, s => Except.ok (instances, index, s)
  | (argn, d) :: rest, instances, index, s =>
    match d with
    | Option.none => Except.error PyError.typeError
    | some inj =>
      match deliverA inj (((instances.drop index).take argn).reverse) s with
      | (v, s') => execStepsA rest (instances ++ [v]) (index + argn) s'

/-- `Injector.deliver`'s reverse walk, allocation-instrumented. -/
def runPathA (path : List Step) (s : Store) : Except PyError (AValue × Store) :=
  match execStepsA path.reverse [] 0 s with
  | Except.error e => Except.error e
  | Except.ok (instances, _, s') =>
    match instances.getLast? with
    | Option.none => Except.error PyError.indexError
    | some v => Except.ok (v, s')

/-- `Injector.deliver(token, strict)` in the allocation-instrumented
model (fresh injector; the plan is the same `_find_path` result as in the
pure model). -/
def deliverOnceA (reg : Registry) (t : Token) (strict : Bool) (fuel : Nat) (s : Store) :
    Option (Except PyError (AValue × Store)) :=
  match findPath reg t strict fuel with
  | Option.none => Option.none
  | some (Except.error e) => some (Except.error e)
  | some (Except.ok path) => some (runPathA path s)

/-!
Object-aliasing model of injector creation, used for the scope-isolation
claim: each `Injector` object holds a *reference* to its `_injections`
dict in a store of dicts, so that "`.copy()` versus aliasing" becomes
expressible.
-/

/-- A store of `_injections` dictionaries; an injector's `dictId` indexes
into it. -/
abbrev DictStore := List Registry

/-- Dereference an injector's `_injections` dict. -/
def dictGet (w : DictStore) (i : Nat) : Registry := w.getD i []

/-- Overwrite an injector's `_injections` dict in place. -/
def dictSet (w : DictStore) (i : Nat) (r : Registry) : DictStore := w.set i r

/-- An `Injector` object in the aliasing model: a reference to its
`_injections` dict plus its own (object-local) `_find_path_method` plan
cache. -/
structure PyInjectorRef where
  dictId : Nat
  cache : PlanCache
deriving DecidableEq

/-- `Injector.create()`: builds `Injector()` (fresh empty dict, fresh
empty plan cache) and then replaces the new object's `_injections` with
`self._injections.copy()` — a *new* dict allocated in the store holding a
copy of the parent's current entries. -/
def createOp (w : DictStore) (p : PyInjectorRef) : DictStore × PyInjectorRef :=
  (w ++ [dictGet w p.dictId], ⟨w.length, []⟩)

/-- `Injector.prepare_injection` in the aliasing model: validates, then
mutates the dict the injector references. -/
def prepareInjectionRefOp (w : DictStore) (p : PyInjectorRef) (t : Token) (v : PySource) :
    Except PyError Unit × DictStore :=
  match v with
  | .injection i => (Except.ok (), dictSet w p.dictId (regSet (dictGet w p.dictId) t i))
  | _ => (Except.error PyError.preparationError, w)

/-- `Injector.deliver` in the aliasing model: resolves against the dict
the injector references, using the injector's own plan cache. -/
def deliverRefOp (w : DictStore) (p : PyInjectorRef) (t : Token) (strict : Bool)
    (fuel : Nat) : Option (Except PyError Value) × PlanCache :=
  deliverCached (dictGet w p.dictId) p.cache t strict fuel

/-!
Concrete scenario used to settle the plan-memoization claim against the
default `lru_cache()` (maximum size 128): 129 distinct value-bound
tokens.
-/

/-- 129 tokens, token `i` bound to the constant `fixed i`. -/
def c4Reg : Registry :=
  (List.range 129).map (fun i => (Token.plain i, Injection.value (Value.fixed i)))

/-- The plan cache after delivering token 0 and then tokens 1..128 in
order on a fresh injector holding `c4Reg` (128 further distinct keys, so
`lru_cache` evicts the entry for token 0). -/
def c4Cache : PlanCache :=
  (List.range 128).foldl
    (fun c i => (deliverCached c4Reg c (Token.plain (i + 1)) true 2).2)
    (deliverCached c4Reg [] (Token.plain 0) true 2).2

/-- The registry after re-preparing token 0 to the constant `fixed 999`. -/
def c4Reg2 : Registry := regSet c4Reg (Token.plain 0) (Injection.value (Value.fixed 999))

deriving instance DecidableEq for Except

/-! ### Basic properties of the breadth-first planner -/

theorem findPathAux_nil (reg : Registry) (s : Bool) (fuel : Nat) (path : List Step) :
    findPathAux reg s fuel [] path = some (Except.ok path) := by
  cases fuel <;> rfl

/-- The `path` parameter of `findPathAux` is a pure accumulator: the
result is the result from an empty accumulator with `path` prepended on
success. -/
theorem findPathAux_acc (reg : Registry) (s : Bool) :
    ∀ (fuel : Nat) (Q : List Token) (path : List Step),
      findPathAux reg s fuel Q path
        = (findPathAux reg s fuel Q []).map (Except.map (fun p => path ++ p)) := by
  intro fuel
  induction fuel with
  | zero =>
    intro Q path
    cases Q with
    | nil => simp [findPathAux_nil, Except.map]
    | cons t q => rfl
  | succ f ih =>
    intro Q path
    cases Q with
    | nil => simp [findPathAux_nil, Except.map]
    | cons t q =>
      cases hf : findInjection reg t with
      | none => cases s <;> simp [findPathAux, hf, Except.map]
      | some inj =>
        simp only [findPathAux, hf]
        rw [ih (q ++ inj.ingredients) (path ++ [(inj.ingredients.length, some inj)]),
            ih (q ++ inj.ingredients) ([] ++ [(inj.ingredients.length, some inj)])]
        cases findPathAux reg s f (q ++ inj.ingredients) [] with
        | none => simp
        | some r => cases r <;> simp [Except.map]

/-- More fuel never changes a finished outcome of the planner loop. -/
theorem findPathAux_mono (reg : Registry) (s : Bool) :
    ∀ (fuel : Nat) (Q : List Token) (path : List Step) (r : Except PyError (List Step)),
      findPathAux reg s fuel Q path = some r →
      ∀ fuel', fuel ≤ fuel' → findPathAux reg s fuel' Q path = some r := by
  intro fuel
  induction fuel with
  | zero =>
    intro Q path r h fuel' _
    cases Q with
    | nil => rw [findPathAux_nil] at h ⊢; exact h
    | cons t q => exact absurd h (by simp [findPathAux])
  | succ f ih =>
    intro Q path r h fuel' hle
    cases Q with
    | nil => rw [findPathAux_nil] at h ⊢; exact h
    | cons t q =>
      obtain ⟨f', rfl⟩ : ∃ f', fuel' = f' + 1 := by
        cases fuel' with
        | zero => omega
        | succ f' => exact ⟨f', rfl⟩
      have hle' : f ≤ f' := by omega
      simp only [findPathAux] at h ⊢
      cases hf : findInjection reg t with
      | none => rw [hf] at h; exact h
      | some inj =>
        rw [hf] at h
        exact ih _ _ _ h f' hle'

/-- If the planner finishes successfully, every token in the work queue
is configured. -/
theorem findPathAux_ok_bound (reg : Registry) (s : Bool) :
    ∀ (fuel : Nat) (Q : List Token) (path P : List Step),
      findPathAux reg s fuel Q path = some (Except.ok P) →
      ∀ t ∈ Q, (findInjection reg t).isSome := by
  intro fuel
  induction fuel with
  | zero =>
    intro Q path P h t ht
    cases Q with
    | nil => simp at ht
    | cons t' q => exact absurd h (by simp [findPathAux])
  | succ f ih =>
    intro Q path P h t ht
    cases Q with
    | nil => simp at ht
    | cons t' q =>
      simp only [findPathAux] at h
      cases hf : findInjection reg t' with
      | none =>
        rw [hf] at h
        cases s <;> simp at h
      | some inj =>
        rw [hf] at h
        rcases List.mem_cons.mp ht with rfl | htq
        · simp [hf]
        · exact ih _ _ _ h t (List.mem_append_left _ htq)

/-- A successful planner run used at least one unit of fuel per token in
the work queue. -/
theorem findPathAux_ok_len (reg : Registry) (s : Bool) :
    ∀ (fuel : Nat) (Q : List Token) (path P : List Step),
      findPathAux reg s fuel Q path = some (Except.ok P) → Q.length ≤ fuel := by
  intro fuel
  induction fuel with
  | zero =>
    intro Q path P h
    cases Q with
    | nil => simp
    | cons t q => exact absurd h (by simp [findPathAux])
  | succ f ih =>
    intro Q path P h
    cases Q with
    | nil => simp
    | cons t q =>
      simp only [findPathAux] at h
      cases hf : findInjection reg t with
      | none =>
        rw [hf] at h
        cases s <;> simp at h
      | some inj =>
        rw [hf] at h
        have := ih _ _ _ h
        simp only [List.length_append] at this
        simp only [List.length_cons]
        omega

/-- Processing one level: with every token of `Q` configured, the planner
consumes `Q` from the front of the queue, emits `Q`'s steps, and enqueues
all of `Q`'s ingredient tokens behind the rest of the queue. -/
theorem findPathAux_level (reg : Registry) (s : Bool) :
    ∀ (Q R : List Token) (path : List Step) (fuel : Nat),
      (∀ t ∈ Q, (findInjection reg t).isSome) →
      findPathAux reg s (fuel + Q.length) (Q ++ R) path
        = findPathAux reg s fuel (R ++ (Q.map (ingrOf reg)).flatten)
            (path ++ Q.map (stepOf reg)) := by
  intro Q
  induction Q with
  | nil => intro R path fuel _; simp
  | cons t q ih =>
    intro R path fuel hb
    obtain ⟨inj, hinj⟩ := Option.isSome_iff_exists.mp (hb t (by simp))
    have h1 : fuel + (t :: q).length = (fuel + q.length) + 1 := by
      simp [List.length_cons]; omega
    rw [h1]
    show findPathAux reg s ((fuel + q.length) + 1) (t :: (q ++ R)) path = _
    simp only [findPathAux, hinj]
    have h2 : (q ++ R) ++ inj.ingredients = q ++ (R ++ inj.ingredients) := by
      simp [List.append_assoc]
    rw [h2, ih (R ++ inj.ingredients) (path ++ [(inj.ingredients.length, some inj)]) fuel
          (fun u hu => hb u (List.mem_cons_of_mem _ hu))]
    have h3 : ingrOf reg t = inj.ingredients := by simp [ingrOf, hinj]
    have h4 : stepOf reg t = (inj.ingredients.length, some inj) := by simp [stepOf, hinj]
    simp [h3, h4, List.append_assoc]

/-! ### Basic properties of the executor and of spec-side resolution -/

/-- The executor loop processes a concatenation of step lists
sequentially. -/
theorem execSteps_append :
    ∀ (A B : List Step) (vs : List Value) (i : Nat),
      execSteps (A ++ B) vs i
        = (execSteps A vs i).bind (fun p => execSteps B p.1 p.2) := by
  intro A
  induction A with
  | nil => intro B vs i; simp [execSteps, Except.bind]
  | cons st A ih =>
    intro B vs i
    obtain ⟨argn, d⟩ := st
    cases d with
    | none => simp [execSteps, Except.bind]
    | some inj => simp [execSteps, ih]

/-- Deeper fuel never changes a successful spec-side resolution
(both for a single token and for a token list). -/
theorem resolve_mono (reg : Registry) :
    ∀ f : Nat,
      (∀ (t : Token) (v : Value) (f' : Nat), f ≤ f' →
        resolveSpec reg f t = some v → resolveSpec reg f' t = some v) ∧
      (∀ (ts : List Token) (vs : List Value) (f' : Nat), f ≤ f' →
        resolveMany reg f ts = some vs → resolveMany reg f' ts = some vs) := by
  intro f
  induction f with
  | zero =>
    constructor
    · intro t v f' _ h; simp [resolveSpec] at h
    · intro ts vs f' _ h
      cases ts with
      | nil =>
        simp only [resolveMany, Option.some.injEq] at h
        simp [resolveMany, h]
      | cons t ts => simp [resolveMany, resolveSpec] at h
  | succ f ih =>
    have hspec : ∀ (t : Token) (v : Value) (f' : Nat), f + 1 ≤ f' →
        resolveSpec reg (f + 1) t = some v → resolveSpec reg f' t = some v := by
      intro t v f' hle h
      obtain ⟨f'', rfl⟩ : ∃ f'', f' = f'' + 1 := by
        cases f' with
        | zero => omega
        | succ x => exact ⟨x, rfl⟩
      have hf : f ≤ f'' := by omega
      cases hfind : findInjection reg t with
      | none => simp [resolveSpec, hfind] at h
      | some inj =>
        simp only [resolveSpec, hfind] at h ⊢
        cases hm : resolveMany reg f inj.ingredients with
        | none => rw [hm] at h; simp at h
        | some args =>
          rw [hm] at h
          rw [ih.2 inj.ingredients args f'' hf hm]
          exact h
    have hmany : ∀ (ts : List Token) (vs : List Value) (f' : Nat), f + 1 ≤ f' →
        resolveMany reg (f + 1) ts = some vs → resolveMany reg f' ts = some vs := by
      intro ts
      induction ts with
      | nil =>
        intro vs f' _ h
        simp only [resolveMany, Option.some.injEq] at h
        simp [resolveMany, h]
      | cons t ts ihts =>
        intro vs f' hle h
        simp only [resolveMany] at h ⊢
        cases hv : resolveSpec reg (f + 1) t with
        | none => rw [hv] at h; simp at h
        | some v =>
          rw [hv] at h
          cases hvs : resolveMany reg (f + 1) ts with
          | none => rw [hvs] at h; simp at h
          | some ws =>
            rw [hvs] at h
            rw [hspec t v f' hle hv, ihts ws f' hle hvs]
            exact h
    exact ⟨hspec, hmany⟩

/-- Spec-side resolution is deterministic. -/
theorem resolves_det (reg : Registry) (t : Token) (v v' : Value) :
    Resolves reg t v → Resolves reg t v' → v = v' := by
  rintro ⟨f1, h1⟩ ⟨f2, h2⟩
  have e1 := (resolve_mono reg f1).1 t v (max f1 f2) (le_max_left _ _) h1
  have e2 := (resolve_mono reg f2).1 t v' (max f1 f2) (le_max_right _ _) h2
  rw [e1] at e2
  exact (Option.some.injEq _ _ ▸ e2)

/-- A `Forall₂` family of resolutions can be combined at one common
depth. -/
theorem forall2_resolves_many (reg : Registry) :
    ∀ (ts : List Token) (ws : List Value),
      List.Forall₂ (Resolves reg) ts ws → ∃ f, resolveMany reg f ts = some ws := by
  intro ts ws h
  induction h with
  | nil => exact ⟨0, by simp [resolveMany]⟩
  | cons hrv _ ih =>
    obtain ⟨f1, h1⟩ := hrv
    obtain ⟨f2, h2⟩ := ih
    refine ⟨max f1 f2, ?_⟩
    simp only [resolveMany]
    rw [(resolve_mono reg f1).1 _ _ _ (le_max_left f1 f2) h1,
        (resolve_mono reg f2).2 _ _ _ (le_max_right f1 f2) h2]

/-- Introduction rule for `Resolves`: a configured token resolves to its
injection's deliver step applied to resolved ingredient values, in
declared order. -/
theorem resolves_of_ingredients (reg : Registry) (t : Token) (inj : Injection)
    (ws : List Value) (hfind : findInjection reg t = some inj)
    (h : List.Forall₂ (Resolves reg) inj.ingredients ws) :
    Resolves reg t (inj.deliverFn ws) := by
  obtain ⟨f, hf⟩ := forall2_resolves_many reg _ _ h
  exact ⟨f + 1, by simp [resolveSpec, hfind, hf]⟩

/-- Splitting a `Forall₂` along an append of its left list. -/
theorem forall2_append_split {α β : Type} {R : α → β → Prop} :
    ∀ (xs rest : List α) (ys : List β),
      List.Forall₂ R (xs ++ rest) ys →
      ∃ ys1 ys2, ys = ys1 ++ ys2 ∧ List.Forall₂ R xs ys1 ∧ List.Forall₂ R rest ys2 := by
  intro xs
  induction xs with
  | nil => intro rest ys h; exact ⟨[], ys, rfl, List.Forall₂.nil, h⟩
  | cons x xs ih =>
    intro rest ys h
    rw [List.cons_append, List.forall₂_cons_left_iff] at h
    obtain ⟨y, ys', hxy, htail, rfl⟩ := h
    obtain ⟨ys1, ys2, rfl, h1, h2⟩ := ih rest _ htail
    exact ⟨y :: ys1, ys2, rfl, List.Forall₂.cons hxy h1, h2⟩

/-- Splitting a `Forall₂` along a flattened left list. -/
theorem forall2_flatten_split {α β : Type} {R : α → β → Prop} :
    ∀ (xss : List (List α)) (ys : List β),
      List.Forall₂ R xss.flatten ys →
      ∃ yss, ys = yss.flatten ∧ List.Forall₂ (List.Forall₂ R) xss yss := by
  intro xss
  induction xss with
  | nil =>
    intro ys h
    rw [List.flatten_nil, List.forall₂_nil_left_iff] at h
    exact ⟨[], by simp [h]⟩
  | cons xs xss ih =>
    intro ys h
    rw [List.flatten_cons] at h
    obtain ⟨ys1, ys2, rfl, h1, h2⟩ := forall2_append_split xs xss.flatten ys h
    obtain ⟨yss, rfl, h3⟩ := ih ys2 h2
    exact ⟨ys1 :: yss, by simp, List.Forall₂.cons h1 h3⟩

/-! ### The executor recovers each step's arguments from the plan -/

/-- Executing the (reversed) steps of one breadth-first level: starting
from a results buffer that ends with the (reversed) child values of the
level's roots and whose read index points at them, the executor hands
each root exactly its own child values in declared order and appends the
roots' delivered values in reverse root order.  `L` is the reversed list
of (root, child-values) pairs. -/
theorem execSteps_roots (reg : Registry) :
    ∀ (L : List (Token × List Value)) (pre post : List Value),
      (∀ p ∈ L, ∃ inj, findInjection reg p.1 = some inj ∧
        inj.ingredients.length = p.2.length) →
      execSteps (L.map (fun p => stepOf reg p.1)) (pre ++ midOf L ++ post) pre.length
        = Except.ok (pre ++ midOf L ++ post ++ L.map (fun p => deliverAt reg p.1 p.2),
            pre.length + (midOf L).length) := by
  intro L
  induction L with
  | nil => intro pre post _; simp [midOf, execSteps]
  | cons p L ih =>
    rcases p with ⟨t, ws⟩
    intro pre post hb
    obtain ⟨inj, hinj, hlen⟩ := hb (t, ws) (by simp)
    have hb' : ∀ p ∈ L, ∃ inj, findInjection reg p.1 = some inj ∧
        inj.ingredients.length = p.2.length :=
      fun p hp => hb p (List.mem_cons_of_mem _ hp)
    have hmid : midOf ((t, ws) :: L) = ws.reverse ++ midOf L := by simp [midOf]
    have hstep : stepOf reg t = (inj.ingredients.length, some inj) := by
      simp [stepOf, hinj]
    simp only [hmid, List.map_cons]
    rw [hstep]
    simp only [execSteps]
    have hlen' : inj.ingredients.length = ws.reverse.length := by
      simp [hlen]
    have hslice :
        ((((pre ++ (ws.reverse ++ midOf L) ++ post).drop pre.length).take
          inj.ingredients.length)).reverse = ws := by
      rw [List.append_assoc, List.drop_left, hlen', List.append_assoc,
        List.take_left, List.reverse_reverse]
    rw [hslice]
    have harr : (pre ++ (ws.reverse ++ midOf L) ++ post) ++ [inj.deliverFn ws]
        = (pre ++ ws.reverse) ++ midOf L ++ (post ++ [inj.deliverFn ws]) := by
      simp [List.append_assoc]
    have hidx : pre.length + inj.ingredients.length = (pre ++ ws.reverse).length := by
      simp [hlen]
    rw [harr, hidx, ih (pre ++ ws.reverse) (post ++ [inj.deliverFn ws]) hb']
    have hdel : deliverAt reg t ws = inj.deliverFn ws := by simp [deliverAt, hinj]
    simp [List.append_assoc, hdel, hlen, List.length_append, List.length_reverse,
      Nat.add_assoc]

/-- From per-root resolved child values, each root itself resolves to its
injection's deliver step applied to them in declared order. -/
theorem forall2_roots_resolve (reg : Registry) :
    ∀ (Q : List Token) (wss : List (List Value)),
      (∀ x ∈ Q, (findInjection reg x).isSome) →
      List.Forall₂ (fun x ws => List.Forall₂ (Resolves reg) (ingrOf reg x) ws) Q wss →
      List.Forall₂ (Resolves reg) Q
        ((Q.zip wss).map (fun p => deliverAt reg p.1 p.2)) := by
  intro Q
  induction Q with
  | nil =>
    intro wss _ h
    rw [List.forall₂_nil_left_iff] at h
    subst h
    exact List.Forall₂.nil
  | cons x Q ihQ =>
    intro wss hb h
    rw [List.forall₂_cons_left_iff] at h
    obtain ⟨ws, wss', hx, htail, rfl⟩ := h
    obtain ⟨inj, hinj⟩ := Option.isSome_iff_exists.mp (hb x (by simp))
    have h1 : deliverAt reg x ws = inj.deliverFn ws := by simp [deliverAt, hinj]
    have h2 : ingrOf reg x = inj.ingredients := by simp [ingrOf, hinj]
    rw [h2] at hx
    simp only [List.zip_cons_cons, List.map_cons]
    exact List.Forall₂.cons (h1 ▸ resolves_of_ingredients reg x inj ws hinj hx)
      (ihQ wss' (fun u hu => hb u (List.mem_cons_of_mem _ hu)) htail)

/-- Mapping a function of the first components over a zip. -/
theorem map_fst_zip_map {α β γ : Type} (f : α → γ) :
    ∀ (l : List α) (l' : List β), l.length ≤ l'.length →
      (l.zip l').map (fun p => f p.1) = l.map f := by
  intro l
  induction l with
  | nil => intro l' _; simp
  | cons x l ih =>
    intro l' hle
    cases l' with
    | nil => simp at hle
    | cons y l' =>
      simp only [List.zip_cons_cons, List.map_cons, List.cons.injEq, true_and]
      exact ih l' (by simpa using hle)

/-- Mapping a function of the second components over a zip. -/
theorem map_snd_zip_map {α β γ : Type} (g : β → γ) :
    ∀ (l : List α) (l' : List β), l'.length ≤ l.length →
      (l.zip l').map (fun p => g p.2) = l'.map g := by
  intro l
  induction l with
  | nil =>
    intro l' hle
    cases l' with
    | nil => simp
    | cons y l' => simp at hle
  | cons x l ih =>
    intro l' hle
    cases l' with
    | nil => simp
    | cons y l' =>
      simp only [List.zip_cons_cons, List.map_cons, List.cons.injEq, true_and]
      exact ih l' (by simpa using hle)

/-- Central correctness invariant of the planner/executor pair: whenever
the breadth-first planner finishes a forest of root tokens `Q`
successfully with plan `P`, executing `P` in reverse produces a results
buffer whose final entries (in reverse) are spec-side resolutions of the
roots in order, with the read index left just past the dependency
entries. -/
theorem findPathAux_exec_correct (reg : Registry) (s : Bool) :
    ∀ (fuel : Nat) (Q : List Token) (P : List Step),
      findPathAux reg s fuel Q [] = some (Except.ok P) →
      ∃ vs extra,
        List.Forall₂ (Resolves reg) Q vs ∧
        execSteps P.reverse [] 0 = Except.ok ((vs ++ extra).reverse, extra.length) ∧
        P.length = Q.length + extra.length := by
  intro fuel
  induction fuel using Nat.strong_induction_on with
  | _ fuel ih =>
    intro Q P h
    cases Q with
    | nil =>
      rw [findPathAux_nil] at h
      have hP : P = [] := by
        have := Option.some.inj h
        exact (Except.ok.inj this).symm
      subst hP
      exact ⟨[], [], List.Forall₂.nil, by simp [execSteps], by simp⟩
    | cons t q =>
      have hbound := findPathAux_ok_bound reg s fuel (t :: q) [] P h
      have hlen := findPathAux_ok_len reg s fuel (t :: q) [] P h
      obtain ⟨f', rfl⟩ : ∃ f', fuel = f' + (t :: q).length :=
        ⟨fuel - (t :: q).length, by omega⟩
      have hlevel := findPathAux_level reg s (t :: q) [] [] f' hbound
      rw [List.append_nil] at hlevel
      rw [hlevel] at h
      simp only [List.nil_append] at h
      rw [findPathAux_acc] at h
      cases hrec : findPathAux reg s f' (((t :: q).map (ingrOf reg)).flatten) [] with
      | none => rw [hrec] at h; simp at h
      | some r =>
        rw [hrec] at h
        cases r with
        | error e => simp [Except.map] at h
        | ok P' =>
          simp only [Option.map_some', Except.map, Option.some.injEq] at h
          have hP : P = (t :: q).map (stepOf reg) ++ P' := by
            exact (Except.ok.inj h).symm
          subst hP
          have hf' : f' < f' + (t :: q).length := by
            simp only [List.length_cons]; omega
          obtain ⟨ws, extra', hws, hexec', hplen'⟩ := ih f' hf' _ _ hrec
          obtain ⟨wss, rfl, hsplit⟩ := forall2_flatten_split _ _ hws
          rw [List.forall₂_map_left_iff] at hsplit
          have hQw : (t :: q).length = wss.length := hsplit.length_eq
          -- the reversed (root, child-values) pair list for the level
          have hbL : ∀ p ∈ ((t :: q).zip wss).reverse,
              ∃ inj, findInjection reg p.1 = some inj ∧
                inj.ingredients.length = p.2.length := by
            intro p hp
            rw [List.mem_reverse] at hp
            obtain ⟨hpx, _⟩ := List.of_mem_zip hp
            obtain ⟨inj, hinj⟩ := Option.isSome_iff_exists.mp (hbound p.1 hpx)
            refine ⟨inj, hinj, ?_⟩
            have hrel := (List.forall₂_iff_zip.mp hsplit).2 hp
            have : ingrOf reg p.1 = inj.ingredients := by simp [ingrOf, hinj]
            rw [this] at hrel
            exact hrel.length_eq
          -- rewrite the reversed level steps as a map over the pair list
          have hsteps : ((t :: q).map (stepOf reg)).reverse
              = (((t :: q).zip wss).reverse).map (fun p => stepOf reg p.1) := by
            rw [List.map_reverse, map_fst_zip_map (stepOf reg) (t :: q) wss (by omega)]
          have hmidL : midOf (((t :: q).zip wss).reverse) = wss.flatten.reverse := by
            unfold midOf
            rw [List.map_reverse,
              map_snd_zip_map List.reverse (t :: q) wss (by omega),
              List.reverse_flatten]
          have hrootsL : (((t :: q).zip wss).reverse).map (fun p => deliverAt reg p.1 p.2)
              = (((t :: q).zip wss).map (fun p => deliverAt reg p.1 p.2)).reverse := by
            rw [List.map_reverse]
          -- run the executor over the whole plan
          have hbig := execSteps_append (P'.reverse) (((t :: q).map (stepOf reg)).reverse) [] 0
          rw [← List.reverse_append] at hbig
          rw [hbig, hexec']
          simp only [Except.bind]
          have hpre : (wss.flatten ++ extra').reverse
              = extra'.reverse ++ midOf (((t :: q).zip wss).reverse) ++ [] := by
            rw [hmidL, List.reverse_append, List.append_nil]
          have hidx0 : extra'.length = extra'.reverse.length := by
            rw [List.length_reverse]
          rw [hsteps, hpre, hidx0,
            execSteps_roots reg (((t :: q).zip wss).reverse) extra'.reverse [] hbL]
          refine ⟨((t :: q).zip wss).map (fun p => deliverAt reg p.1 p.2),
            wss.flatten ++ extra', forall2_roots_resolve reg (t :: q) wss hbound hsplit,
            ?_, ?_⟩
          · rw [hrootsL, hmidL]
            simp [List.reverse_append, List.append_assoc, List.length_append,
              List.length_reverse, Nat.add_comm]
          · have hchild : (((t :: q).map (ingrOf reg)).flatten).length
                = wss.flatten.length := hws.length_eq
            simp only [List.length_append, List.length_map, hplen', hchild]

/-! ### Claim C1 -/

/-- C1: for every registry and root token whose dependency expansion is
finite and fully configured (i.e. `_find_path` finishes successfully with
some plan), `deliver(token, strict)` walks the breadth-first plan in
reverse and produces exactly the spec-side recursive resolution of the
root: every Class/Function/Sequence deliver step receives the resolved
values of its declared ingredient tokens in declared positional order
(`Resolves` is defined by exactly that positional correspondence), the
delivered value is the root's, and it is unique. -/
theorem c1_deliver_positional_correct (reg : Registry) (t : Token) (strict : Bool)
    (fuel : Nat) (path : List Step)
    (h : findPath reg t strict fuel = some (Except.ok path)) :
    ∃ v, Resolves reg t v ∧ deliverOnce reg t strict fuel = some (Except.ok v) ∧
      ∀ v', Resolves reg t v' → v' = v := by
  obtain ⟨vs, extra, hvs, hexec, _⟩ :=
    findPathAux_exec_correct reg strict fuel [t] path h
  rw [List.forall₂_cons_left_iff] at hvs
  obtain ⟨v, u', hv, hnil, rfl⟩ := hvs
  rw [List.forall₂_nil_left_iff] at hnil
  subst hnil
  refine ⟨v, hv, ?_, fun v' hv' => resolves_det reg t v' v hv' hv⟩
  simp only [deliverOnce, h, runPath, hexec, List.getLast?_reverse]
  simp

/-- Witness for C1 at a concrete registry: the test suite's
`MyFacade(a: MyService, b: value)` shape (token 1 is a class with
ingredients `[2, 3]`, token 2 a dependency-free class, token 3 a constant). -/
theorem c1_witness :
    ∃ v, Resolves [(Token.plain 1, Injection.cls ⟨10, true, [("a", Token.plain 2), ("b", Token.plain 3)]⟩),
        (Token.plain 2, Injection.cls ⟨20, true, []⟩),
        (Token.plain 3, Injection.value (Value.fixed 7))] (Token.plain 1) v ∧
      deliverOnce [(Token.plain 1, Injection.cls ⟨10, true, [("a", Token.plain 2), ("b", Token.plain 3)]⟩),
        (Token.plain 2, Injection.cls ⟨20, true, []⟩),
        (Token.plain 3, Injection.value (Value.fixed 7))] (Token.plain 1) true 10
        = some (Except.ok v) ∧
      ∀ v', Resolves [(Token.plain 1, Injection.cls ⟨10, true, [("a", Token.plain 2), ("b", Token.plain 3)]⟩),
        (Token.plain 2, Injection.cls ⟨20, true, []⟩),
        (Token.plain 3, Injection.value (Value.fixed 7))] (Token.plain 1) v' → v' = v :=
  c1_deliver_positional_correct _ _ true 10
    [(2, some (Injection.cls ⟨10, true, [("a", Token.plain 2), ("b", Token.plain 3)]⟩)),
     (0, some (Injection.cls ⟨20, true, []⟩)),
     (0, some (Injection.value (Value.fixed 7)))] rfl

/-! ### Claim C2 -/

/-- C2 (against the claim): `deliver(X, strict=False)` on an unconfigured
token does *not* append a usable placeholder and continue — the
non-strict branch appends `(0, None)` but lacks a `continue`, so the loop
falls through to `ingredients = injection.ingredients` with
`injection = None` and raises `AttributeError`.  Evaluated at the failing
input: an empty registry and any token. -/
theorem c2_nonstrict_unconfigured_raises :
    deliverOnce [] (Token.plain 0) false 1
      = some (Except.error PyError.attributeError) := rfl

/-! ### Supporting lemmas for the strict-mode error claims -/

/-- Accumulator irrelevance for planner errors. -/
theorem findPathAux_error_acc (reg : Registry) (s : Bool) (fuel : Nat)
    (Q : List Token) (path : List Step) (e : PyError) :
    findPathAux reg s fuel Q path = some (Except.error e)
      ↔ findPathAux reg s fuel Q [] = some (Except.error e) := by
  rw [findPathAux_acc]
  cases findPathAux reg s fuel Q [] with
  | none => simp
  | some r => cases r <;> simp [Except.map]

/-- Accumulator irrelevance for planner non-termination. -/
theorem findPathAux_none_acc (reg : Registry) (s : Bool) (fuel : Nat)
    (Q : List Token) (path : List Step) :
    findPathAux reg s fuel Q path = Option.none
      ↔ findPathAux reg s fuel Q [] = Option.none := by
  rw [findPathAux_acc]
  cases findPathAux reg s fuel Q [] with
  | none => simp
  | some r => cases r <;> simp [Except.map]

/-- The only exception the planner loop itself raises is `DeliveryError`
in strict mode and `AttributeError` (the missing-`continue` fall-through)
in non-strict mode. -/
theorem findPathAux_error_kind (reg : Registry) (s : Bool) :
    ∀ (fuel : Nat) (Q : List Token) (path : List Step) (e : PyError),
      findPathAux reg s fuel Q path = some (Except.error e) →
      e = if s then PyError.deliveryError else PyError.attributeError := by
  intro fuel
  induction fuel with
  | zero =>
    intro Q path e h
    cases Q with
    | nil => rw [findPathAux_nil] at h; simp at h
    | cons t q => simp [findPathAux] at h
  | succ f ih =>
    intro Q path e h
    cases Q with
    | nil => rw [findPathAux_nil] at h; simp at h
    | cons t q =>
      cases hf : findInjection reg t with
      | none =>
        simp only [findPathAux, hf] at h
        cases s <;> simp_all
      | some inj =>
        simp only [findPathAux, hf] at h
        exact ih _ _ _ h

/-- Queue fairness: if an unconfigured token is anywhere in the queue,
the strict planner raises `DeliveryError` within as many iterations as
the queue segment up to it is long (each iteration pops exactly one
entry; enqueued ingredients go behind). -/
theorem findPathAux_fair (reg : Registry) :
    ∀ (Q1 Q2 : List Token) (path : List Step) (u : Token),
      u ∈ Q1 → findInjection reg u = Option.none →
      findPathAux reg true Q1.length (Q1 ++ Q2) path
        = some (Except.error PyError.deliveryError) := by
  intro Q1
  induction Q1 with
  | nil => intro Q2 path u hu; simp at hu
  | cons t q ih =>
    intro Q2 path u hu hnone
    have hlen : (t :: q).length = q.length + 1 := rfl
    rw [hlen]
    cases hf : findInjection reg t with
    | none => simp [findPathAux, hf]
    | some inj =>
      show findPathAux reg true (q.length + 1) (t :: (q ++ Q2)) path = _
      simp only [findPathAux, hf]
      have hu' : u ∈ q := by
        rcases List.mem_cons.mp hu with rfl | hq
        · rw [hnone] at hf; cases hf
        · exact hq
      have hassoc : (q ++ Q2) ++ inj.ingredients = q ++ (Q2 ++ inj.ingredients) :=
        List.append_assoc _ _ _
      rw [hassoc]
      exact ih (Q2 ++ inj.ingredients) _ u hu' hnone

/-- Transitive requirement extended by one dependency edge at the end. -/
theorem requires_snoc (reg : Registry) :
    ∀ (a b c : Token), Requires reg a b → ReqStep reg b c → Requires reg a c := by
  intro a b c hab
  induction hab with
  | refl t => intro h; exact Requires.head t c c h (Requires.refl c)
  | head t x w hstep _ ih => intro h; exact Requires.head t x c hstep (ih h)

/-- Any planner error traces back to an unconfigured token transitively
required by the roots. -/
theorem findPathAux_error_source (reg : Registry) (s : Bool) (t0 : Token) :
    ∀ (fuel : Nat) (Q : List Token) (path : List Step) (e : PyError),
      (∀ x ∈ Q, Requires reg t0 x) →
      findPathAux reg s fuel Q path = some (Except.error e) →
      ∃ u, Requires reg t0 u ∧ findInjection reg u = Option.none := by
  intro fuel
  induction fuel with
  | zero =>
    intro Q path e hreach h
    cases Q with
    | nil => rw [findPathAux_nil] at h; simp at h
    | cons t q => simp [findPathAux] at h
  | succ f ih =>
    intro Q path e hreach h
    cases Q with
    | nil => rw [findPathAux_nil] at h; simp at h
    | cons t q =>
      cases hf : findInjection reg t with
      | none => exact ⟨t, hreach t (by simp), hf⟩
      | some inj =>
        simp only [findPathAux, hf] at h
        refine ih (q ++ inj.ingredients) _ e ?_ h
        intro x hx
        rcases List.mem_append.mp hx with h1 | h1
        · exact hreach x (List.mem_cons_of_mem _ h1)
        · exact requires_snoc reg t0 t x (hreach t (by simp))
            (ReqStep.mk t x inj hf h1)

/-- Whenever some transitively required token of `t` is unconfigured, the
strict planner started on `t` eventually raises `DeliveryError`
(generalized to any queue containing the requiring token). -/
theorem strict_error_of_unconfigured (reg : Registry) (t u : Token)
    (hreq : Requires reg t u) :
    findInjection reg u = Option.none →
    ∀ Q : List Token, t ∈ Q →
      ∃ fuel, findPathAux reg true fuel Q []
        = some (Except.error PyError.deliveryError) := by
  induction hreq with
  | refl t =>
    intro hnone Q hQ
    refine ⟨Q.length, ?_⟩
    have hfair := findPathAux_fair reg Q [] [] t hQ hnone
    rw [List.append_nil] at hfair
    exact hfair
  | head t x w hstep _ ih =>
    intro hnone Q hQ
    by_cases hall : ∀ y ∈ Q, (findInjection reg y).isSome
    · have hx : x ∈ (Q.map (ingrOf reg)).flatten := by
        cases hstep with
        | mk inj hfind hmem =>
          refine List.mem_flatten.mpr ⟨ingrOf reg t, List.mem_map_of_mem _ hQ, ?_⟩
          simpa [ingrOf, hfind] using hmem
      obtain ⟨fuel, hfp⟩ := ih hnone ((Q.map (ingrOf reg)).flatten) hx
      refine ⟨fuel + Q.length, ?_⟩
      have hlv := findPathAux_level reg true Q [] [] fuel hall
      rw [List.append_nil] at hlv
      rw [hlv]
      simp only [List.nil_append]
      rw [findPathAux_error_acc]
      exact hfp
    · push_neg at hall
      obtain ⟨y, hyQ, hynone⟩ := hall
      have hy : findInjection reg y = Option.none := by
        cases hfind : findInjection reg y with
        | none => rfl
        | some i => rw [hfind] at hynone; simp at hynone
      refine ⟨Q.length, ?_⟩
      have hfair := findPathAux_fair reg Q [] [] y hyQ hy
      rw [List.append_nil] at hfair
      exact hfair

/-- A successfully planned path always executes to a value (the reverse
walk cannot fail), and that value is the spec-side resolution of the
root. -/
theorem findPath_ok_run (reg : Registry) (s : Bool) (fuel : Nat) (t : Token)
    (path : List Step) (h : findPath reg t s fuel = some (Except.ok path)) :
    ∃ v, runPath path = Except.ok v ∧ Resolves reg t v := by
  obtain ⟨vs, extra, hvs, hexec, _⟩ :=
    findPathAux_exec_correct reg s fuel [t] path h
  rw [List.forall₂_cons_left_iff] at hvs
  obtain ⟨v, u', hv, hnil, rfl⟩ := hvs
  rw [List.forall₂_nil_left_iff] at hnil
  subst hnil
  refine ⟨v, ?_, hv⟩
  simp only [runPath, hexec, List.getLast?_reverse]
  simp

/-- The inference chain of `prepare` only ever raises
`PreparationError`. -/
theorem inferInjection_error_eq (env : Nat → PyClass) (token : Token) (v : PySource)
    (e : PyError) (h : inferInjection env token v = Except.error e) :
    e = PyError.preparationError := by
  cases v <;> cases token <;>
    simp only [inferInjection] at h <;>
    first
      | (split at h <;> simp_all)
      | (simp at h)

/-! ### Claim C3 -/

/-- C3: in strict mode, whenever the root token or any transitively
required ingredient token is unconfigured, `deliver` raises
`DeliveryError` (and can never succeed, at any fuel); `DeliveryError` is
only a strict-mode resolution-time failure: a non-strict `deliver` never
raises it, and neither `prepare` nor `prepare_injection` ever raises
it. -/
theorem c3_delivery_error_strict_only (reg : Registry) (t u : Token)
    (hreq : Requires reg t u) (hnone : findInjection reg u = Option.none) :
    (∃ fuel, deliverOnce reg t true fuel
      = some (Except.error PyError.deliveryError)) ∧
    (∀ (fuel : Nat) (v : Value), deliverOnce reg t true fuel ≠ some (Except.ok v)) ∧
    (∀ (reg' : Registry) (t' : Token) (fuel : Nat) (e : PyError),
      deliverOnce reg' t' false fuel = some (Except.error e) →
      e ≠ PyError.deliveryError) ∧
    (∀ (s0 : Injector) (tok : Token) (env : Nat → PyClass) (v : PySource),
      (Injector.prepare env s0 tok v).1 ≠ Except.error PyError.deliveryError ∧
      (s0.prepare_injection tok v).1 ≠ Except.error PyError.deliveryError) := by
  refine ⟨?_, ?_, ?_, ?_⟩
  · obtain ⟨fuel, hf⟩ :=
      strict_error_of_unconfigured reg t u hreq hnone [t] (by simp)
    exact ⟨fuel, by simp [deliverOnce, findPath, hf]⟩
  · intro fuel v hok
    unfold deliverOnce at hok
    cases hfp : findPath reg t true fuel with
    | none => rw [hfp] at hok; simp at hok
    | some r =>
      rw [hfp] at hok
      cases r with
      | error e => simp at hok
      | ok path =>
        obtain ⟨fuel', herr⟩ :=
          strict_error_of_unconfigured reg t u hreq hnone [t] (by simp)
        have h1 := findPathAux_mono reg true fuel [t] [] _ hfp
          (max fuel fuel') (le_max_left _ _)
        have h2 := findPathAux_mono reg true fuel' [t] [] _ herr
          (max fuel fuel') (le_max_right _ _)
        rw [h1] at h2
        simp at h2
  · intro reg' t' fuel e h
    unfold deliverOnce at h
    cases hfp : findPath reg' t' false fuel with
    | none => rw [hfp] at h; simp at h
    | some r =>
      rw [hfp] at h
      cases r with
      | error e' =>
        have := findPathAux_error_kind reg' false fuel [t'] [] e' hfp
        simp only [Bool.false_eq_true, if_false] at this
        subst this
        simp at h
        subst h
        simp
      | ok path =>
        obtain ⟨v, hrun, _⟩ := findPath_ok_run reg' false fuel t' path hfp
        have h' : some (runPath path) = some (Except.error e) := h
        rw [hrun] at h'
        simp at h'
  · intro s0 tok env v
    constructor
    · unfold Injector.prepare
      cases hinf : inferInjection env tok v with
      | error e =>
        have he := inferInjection_error_eq env tok v e hinf
        subst he
        simp
      | ok i => simp [Injector.prepare_injection]
    · unfold Injector.prepare_injection
      cases v <;> simp

/-- Witness for C3: a class token whose single declared ingredient is
unconfigured (the test suite's
`test_should_raise_delivery_error_when_dependency_not_prepared` shape). -/
theorem c3_witness :
    ∃ fuel, deliverOnce [(Token.plain 0, Injection.cls ⟨10, true, [("service", Token.plain 1)]⟩)]
      (Token.plain 0) true fuel = some (Except.error PyError.deliveryError) :=
  (c3_delivery_error_strict_only
    [(Token.plain 0, Injection.cls ⟨10, true, [("service", Token.plain 1)]⟩)]
    (Token.plain 0) (Token.plain 1)
    (Requires.head _ _ _
      (ReqStep.mk _ _ (Injection.cls ⟨10, true, [("service", Token.plain 1)]⟩)
        rfl (by decide))
      (Requires.refl _)) rfl).1

/-! ### Termination and non-termination of the planner (claim C9) -/

/-- `sizeB` is always positive. -/
theorem sizeB_pos (reg : Registry) : ∀ (f : Nat) (t : Token), 1 ≤ sizeB reg f t := by
  intro f t
  cases f <;> simp [sizeB]

/-- Stability of the expansion-size measure: once the fuel reaches the
token's rank, `sizeB` no longer changes (under a rank function that
descends along reachable dependency edges). -/
theorem sizeB_stable (reg : Registry) (t0 : Token) (rank : Token → Nat)
    (hdesc : RankDesc reg t0 rank) :
    ∀ (f : Nat) (x : Token), Requires reg t0 x → rank x ≤ f →
      sizeB reg f x = sizeB reg (rank x) x := by
  intro f
  induction f using Nat.strong_induction_on with
  | _ f ih =>
    intro x hreach hle
    cases hf : f with
    | zero =>
      have : rank x = 0 := by omega
      rw [this]
    | succ g =>
      cases hr : rank x with
      | zero =>
        -- rank 0: the token can have no dependency edges, so its
        -- ingredient list is empty and every size is 1
        have hempty : ingrOf reg x = [] := by
          cases hfind : findInjection reg x with
          | none => simp [ingrOf, hfind]
          | some inj =>
            cases hi : inj.ingredients with
            | nil => simp [ingrOf, hfind, hi]
            | cons y ys =>
              have hstep : ReqStep reg x y :=
                ReqStep.mk x y inj hfind (by rw [hi]; simp)
              have := hdesc x y hreach hstep
              omega
        simp [sizeB, hempty]
      | succ r =>
        have hchild : ∀ u ∈ ingrOf reg x, sizeB reg g u = sizeB reg r u := by
          intro u hu
          have hstep : ReqStep reg x u := by
            cases hfind : findInjection reg x with
            | none => simp [ingrOf, hfind] at hu
            | some inj =>
              refine ReqStep.mk x u inj hfind ?_
              simpa [ingrOf, hfind] using hu
          have hranku : rank u < rank x := hdesc x u hreach hstep
          have hreachu : Requires reg t0 u := requires_snoc reg t0 x u hreach hstep
          have h1 : sizeB reg g u = sizeB reg (rank u) u := by
            apply ih g (by omega) u hreachu
            omega
          have h2 : sizeB reg r u = sizeB reg (rank u) u := by
            apply ih r (by omega) u hreachu
            omega
          rw [h1, h2]
        simp only [sizeB]
        rw [List.map_congr_left hchild]

/-- Under a descending rank, a reachable token's exact expansion size is
one plus the sizes of its ingredients. -/
theorem sizeB_unfold (reg : Registry) (t0 : Token) (rank : Token → Nat)
    (hdesc : RankDesc reg t0 rank) (x : Token) (hreach : Requires reg t0 x) :
    sizeB reg (rank x) x
      = 1 + ((ingrOf reg x).map (fun u => sizeB reg (rank u) u)).sum := by
  cases hr : rank x with
  | zero =>
    have hempty : ingrOf reg x = [] := by
      cases hfind : findInjection reg x with
      | none => simp [ingrOf, hfind]
      | some inj =>
        cases hi : inj.ingredients with
        | nil => simp [ingrOf, hfind, hi]
        | cons y ys =>
          have hstep : ReqStep reg x y :=
            ReqStep.mk x y inj hfind (by rw [hi]; simp)
          have := hdesc x y hreach hstep
          omega
    simp [sizeB, hempty]
  | succ r =>
    simp only [sizeB]
    congr 1
    congr 1
    apply List.map_congr_left
    intro u hu
    have hstep : ReqStep reg x u := by
      cases hfind : findInjection reg x with
      | none => simp [ingrOf, hfind] at hu
      | some inj =>
        refine ReqStep.mk x u inj hfind ?_
        simpa [ingrOf, hfind] using hu
    have hranku : rank u < rank x := hdesc x u hreach hstep
    have hreachu : Requires reg t0 u := requires_snoc reg t0 x u hreach hstep
    exact sizeB_stable reg t0 rank hdesc r u hreachu (by omega)

/-- Termination of the breadth-first planner on acyclic (rank-descending)
reachable dependency graphs: with fuel equal to the total expansion size
of the queue, the loop finishes (successfully or with an exception). -/
theorem findPathAux_term (reg : Registry) (t0 : Token) (rank : Token → Nat)
    (hdesc : RankDesc reg t0 rank) (s : Bool) :
    ∀ (N : Nat) (Q : List Token) (path : List Step),
      (∀ x ∈ Q, Requires reg t0 x) →
      (Q.map (fun x => sizeB reg (rank x) x)).sum = N →
      (findPathAux reg s N Q path).isSome := by
  intro N
  induction N using Nat.strong_induction_on with
  | _ N ih =>
    intro Q path hreach hsum
    cases Q with
    | nil => rw [findPathAux_nil]; simp
    | cons x q =>
      have hxsz := sizeB_pos reg (rank x) x
      simp only [List.map_cons, List.sum_cons] at hsum
      obtain ⟨M, rfl⟩ : ∃ M, N = M + 1 := ⟨N - 1, by omega⟩
      cases hfind : findInjection reg x with
      | none => simp [findPathAux, hfind]; cases s <;> simp
      | some inj =>
        simp only [findPathAux, hfind]
        have hingr : ingrOf reg x = inj.ingredients := by simp [ingrOf, hfind]
        have hsz := sizeB_unfold reg t0 rank hdesc x (hreach x (by simp))
        rw [hingr] at hsz
        apply ih M (by omega) (q ++ inj.ingredients) _ ?_ ?_
        · intro y hy
          rcases List.mem_append.mp hy with h1 | h1
          · exact hreach y (List.mem_cons_of_mem _ h1)
          · exact requires_snoc reg t0 x y (hreach x (by simp))
              (ReqStep.mk x y inj hfind h1)
        · rw [List.map_append, List.sum_append]
          omega

/-- From a token on (or reaching) a dependency cycle, the configured
breadth-first expansion regenerates a cycle-reaching token forever. -/
theorem reaches_cycle_step (reg : Registry) (x : Token) (inj : Injection)
    (hinj : findInjection reg x = some inj) (hxc : ReachesCycle reg x) :
    ∃ x' ∈ inj.ingredients, ReachesCycle reg x' := by
  obtain ⟨c, u', hreq, hstep, hback⟩ := hxc
  cases hreq with
  | refl =>
    cases hstep with
    | mk inj0 hfind0 hmem0 =>
      rw [hinj] at hfind0
      have : inj0 = inj := (Option.some.inj hfind0).symm
      subst this
      exact ⟨u', hmem0, x, u', hback, ReqStep.mk x u' inj0 hinj hmem0, hback⟩
  | head _ y _ hstepxy hrest =>
    cases hstepxy with
    | mk inj0 hfind0 hmem0 =>
      rw [hinj] at hfind0
      have : inj0 = inj := (Option.some.inj hfind0).symm
      subst this
      exact ⟨y, hmem0, c, u', hrest, hstep, hback⟩

/-- If the (fully configured) queue contains a token whose dependency
graph reaches a cycle, the planner loop never finishes: the work queue
grows without bound. -/
theorem findPathAux_cycle_none (reg : Registry) (t0 : Token)
    (hconf : FullyConfigured reg t0) (s : Bool) :
    ∀ (fuel : Nat) (Q : List Token) (path : List Step),
      (∀ x ∈ Q, Requires reg t0 x) →
      (∃ x ∈ Q, ReachesCycle reg x) →
      findPathAux reg s fuel Q path = Option.none := by
  intro fuel
  induction fuel with
  | zero =>
    intro Q path hreach hex
    obtain ⟨x, hxQ, _⟩ := hex
    cases Q with
    | nil => simp at hxQ
    | cons t q => rfl
  | succ f ih =>
    intro Q path hreach hex
    obtain ⟨x, hxQ, hxc⟩ := hex
    cases Q with
    | nil => simp at hxQ
    | cons t q =>
      obtain ⟨inj, hinj⟩ := Option.isSome_iff_exists.mp (hconf t (hreach t (by simp)))
      simp only [findPathAux, hinj]
      apply ih
      · intro y hy
        rcases List.mem_append.mp hy with h1 | h1
        · exact hreach y (List.mem_cons_of_mem _ h1)
        · exact requires_snoc reg t0 t y (hreach t (by simp))
            (ReqStep.mk t y inj hinj h1)
      · rcases List.mem_cons.mp hxQ with rfl | hxq
        · obtain ⟨x', hx'm, hx'c⟩ := reaches_cycle_step reg x inj hinj hxc
          exact ⟨x', List.mem_append_right _ hx'm, hx'c⟩
        · exact ⟨x, List.mem_append_left _ hxq, hxc⟩

/-! ### Claim C9 -/

/-- C9 (amended): the breadth-first `_find_path` terminates for every
root whose reachable dependency graph is acyclic (witnessed by a
descending rank function) — successfully when the graph is also fully
configured — but performs no cycle detection: for a *fully configured*
token whose dependency graph reaches a cycle, the work queue regenerates
forever and the loop never terminates at any fuel.  (If some reachable
token is unconfigured, the run instead terminates by raising
`DeliveryError`/`AttributeError`, which is the correction to the claim as
stated.) -/
theorem c9_planner_termination (reg : Registry) (t : Token) (strict : Bool) :
    ((∃ rank, RankDesc reg t rank) →
      ∃ fuel, (findPath reg t strict fuel).isSome) ∧
    (FullyConfigured reg t → (∃ rank, RankDesc reg t rank) →
      ∃ fuel path, findPath reg t strict fuel = some (Except.ok path)) ∧
    (FullyConfigured reg t → ReachesCycle reg t →
      ∀ fuel, findPath reg t strict fuel = Option.none) := by
  refine ⟨?_, ?_, ?_⟩
  · rintro ⟨rank, hdesc⟩
    refine ⟨sizeB reg (rank t) t, ?_⟩
    apply findPathAux_term reg t rank hdesc strict _ [t] []
    · intro x hx
      rcases List.mem_singleton.mp hx with rfl
      exact Requires.refl _
    · simp
  · rintro hconf ⟨rank, hdesc⟩
    have hsome : (findPath reg t strict (sizeB reg (rank t) t)).isSome := by
      apply findPathAux_term reg t rank hdesc strict _ [t] []
      · intro x hx
        rcases List.mem_singleton.mp hx with rfl
        exact Requires.refl _
      · simp
    obtain ⟨r, hr⟩ := Option.isSome_iff_exists.mp hsome
    cases r with
    | error e =>
      obtain ⟨w, hw, hwnone⟩ := findPathAux_error_source reg strict t _ [t] [] e
        (by intro x hx; rcases List.mem_singleton.mp hx with rfl; exact Requires.refl _)
        hr
      have := hconf w hw
      rw [hwnone] at this
      simp at this
    | ok path => exact ⟨_, path, hr⟩
  · intro hconf hcyc fuel
    apply findPathAux_cycle_none reg t hconf strict fuel [t] []
    · intro x hx
      rcases List.mem_singleton.mp hx with rfl
      exact Requires.refl _
    · exact ⟨t, by simp, hcyc⟩

/-- Counterexample to C9 as stated: token 0's dependency graph reaches
itself (`0 → [0, 1]`), yet with ingredient token 1 unconfigured the
strict computation terminates after three iterations with
`DeliveryError` instead of growing the queue without bound. -/
theorem c9_counterexample :
    ReachesCycle [(Token.plain 0, Injection.seq SeqKind.list [Token.plain 0, Token.plain 1])]
      (Token.plain 0) ∧
    findPath [(Token.plain 0, Injection.seq SeqKind.list [Token.plain 0, Token.plain 1])]
      (Token.plain 0) true 3 = some (Except.error PyError.deliveryError) := by
  constructor
  · exact ⟨Token.plain 0, Token.plain 0, Requires.refl _,
      ReqStep.mk _ _ (Injection.seq SeqKind.list [Token.plain 0, Token.plain 1])
        rfl (by decide),
      Requires.refl _⟩
  · rfl

/-- Witness for C9's non-termination part at the concrete self-cycle
registry `0 → [0]` (fully configured): the planner runs out of any
amount of fuel. -/
theorem c9_witness :
    findPath [(Token.plain 0, Injection.seq SeqKind.list [Token.plain 0])]
      (Token.plain 0) true 25 = Option.none := by
  have hreq : ∀ a b : Token,
      Requires [(Token.plain 0, Injection.seq SeqKind.list [Token.plain 0])] a b →
      a = Token.plain 0 → b = Token.plain 0 := by
    intro a b h
    induction h with
    | refl t => intro h0; exact h0
    | head t y w hstep _ ih =>
      intro h0
      subst h0
      cases hstep with
      | mk inj hfind hmem =>
        have hinj : inj = Injection.seq SeqKind.list [Token.plain 0] := by
          simpa [findInjection] using hfind.symm
        subst hinj
        have : y = Token.plain 0 := by
          simpa [Injection.ingredients] using hmem
        exact ih this
  exact (c9_planner_termination
    [(Token.plain 0, Injection.seq SeqKind.list [Token.plain 0])]
    (Token.plain 0) true).2.2
    (by
      intro u hu
      rw [hreq _ _ hu rfl]
      simp [findInjection])
    ⟨Token.plain 0, Token.plain 0, Requires.refl _,
      ReqStep.mk _ _ (Injection.seq SeqKind.list [Token.plain 0]) rfl (by decide),
      Requires.refl _⟩
    25

/-- On a fresh injector (empty plan cache) the cached `deliver` agrees
with `deliverOnce`. -/
theorem deliverCached_empty (reg : Registry) (t : Token) (strict : Bool) (fuel : Nat) :
    (deliverCached reg [] t strict fuel).1 = deliverOnce reg t strict fuel := by
  simp only [deliverCached, deliverOnce, cacheLookup]
  cases findPath reg t strict fuel with
  | none => rfl
  | some r => cases r <;> rfl

/-! ### Claim C4 -/

/-- C4 (amended): plans are memoized per `(token, strict)` key — distinct
strict flags are distinct keys — in the default `lru_cache()` (capacity
`lruMaxsize = 128`).  While the key is cached, `deliver` reuses the
memoized plan and ignores the current registry entirely (so mutating the
registry does not change the plan used); on a miss with a successful
`_find_path`, the freshly computed plan is stored under the key, evicting
the least-recently-used entry beyond capacity.  (The claim's "every later
deliver ... reuses that plan" holds only until eviction; see the
counterexample.) -/
theorem c4_plan_memoization (reg : Registry) (cache : PlanCache) (t : Token)
    (strict : Bool) (fuel : Nat) :
    (∀ P, cacheLookup cache (t, strict) = some P →
      deliverCached reg cache t strict fuel
        = (some (runPath P), cacheTouch cache (t, strict))) ∧
    (∀ (reg' : Registry) (P : List Step), cacheLookup cache (t, strict) = some P →
      deliverCached reg cache t strict fuel
        = deliverCached reg' cache t strict fuel) ∧
    (∀ P, cacheLookup cache (t, strict) = Option.none →
      findPath reg t strict fuel = some (Except.ok P) →
      deliverCached reg cache t strict fuel
        = (some (runPath P), cacheInsert cache (t, strict) P)) := by
  refine ⟨?_, ?_, ?_⟩
  · intro P hP
    simp [deliverCached, hP]
  · intro reg' P hP
    simp [deliverCached, hP]
  · intro P hnone hfp
    simp [deliverCached, hnone, hfp]

/-- Witness for C4 at a concrete cache hit: the memoized plan is executed
and the entry is touched; the (empty) registry is never consulted. -/
theorem c4_witness :
    deliverCached []
        [((Token.plain 0, true), [(0, some (Injection.value (Value.fixed 5)))])]
        (Token.plain 0) true 0
      = (some (runPath [(0, some (Injection.value (Value.fixed 5)))]),
         cacheTouch [((Token.plain 0, true), [(0, some (Injection.value (Value.fixed 5)))])]
           (Token.plain 0, true)) :=
  (c4_plan_memoization []
    [((Token.plain 0, true), [(0, some (Injection.value (Value.fixed 5)))])]
    (Token.plain 0) true 0).1 _ rfl

set_option maxRecDepth 60000 in
/-- Counterexample to C4 as stated: with the default `lru_cache()`
(capacity 128), delivering token 0 (cached plan yields `fixed 0`), then
128 further distinct tokens, evicts the `(token 0, True)` entry; after
re-preparing token 0 to `fixed 999`, the next `deliver(0, True)` does
*not* reuse the first plan — it recomputes from the mutated registry and
returns `fixed 999`. -/
theorem c4_counterexample :
    (deliverCached c4Reg [] (Token.plain 0) true 2).1
        = some (Except.ok (Value.fixed 0)) ∧
    cacheLookup c4Cache (Token.plain 0, true) = Option.none ∧
    (deliverCached c4Reg2 c4Cache (Token.plain 0) true 2).1
        = some (Except.ok (Value.fixed 999)) :=
  ⟨by decide, by decide, by decide⟩

/-! ### Claim C5 -/

/-- C5: `create()` gives the child injector a *new* dict holding a copy
of the parent's bindings as they were at call time (first conjunct);
afterwards, registering a binding in the child changes nothing about any
parent delivery, and registering in the parent changes nothing about any
child delivery. -/
theorem c5_branch_isolation (w : DictStore) (p : PyInjectorRef)
    (hp : p.dictId < w.length) (t' : Token) (i : Injection) (tq : Token)
    (strict : Bool) (fuel : Nat) :
    (dictGet (createOp w p).1 (createOp w p).2.dictId = dictGet w p.dictId) ∧
    (deliverRefOp
        (prepareInjectionRefOp (createOp w p).1 (createOp w p).2 t'
          (.injection i)).2 p tq strict fuel
      = deliverRefOp w p tq strict fuel) ∧
    (deliverRefOp
        (prepareInjectionRefOp (createOp w p).1 p t' (.injection i)).2
        (createOp w p).2 tq strict fuel
      = deliverRefOp (createOp w p).1 (createOp w p).2 tq strict fuel) := by
  have hget1 : dictGet (w ++ [dictGet w p.dictId]) w.length = dictGet w p.dictId := by
    simp [dictGet, List.getD_eq_getElem?_getD, List.getElem?_concat_length]
  refine ⟨hget1, ?_, ?_⟩
  · simp only [createOp, prepareInjectionRefOp, deliverRefOp, dictSet]
    have hne : w.length ≠ p.dictId := by omega
    have hkey : dictGet ((w ++ [dictGet w p.dictId]).set w.length
        (regSet (dictGet (w ++ [dictGet w p.dictId]) w.length) t' i)) p.dictId
        = dictGet w p.dictId := by
      simp [dictGet, List.getD_eq_getElem?_getD, List.getElem?_set_ne hne,
        List.getElem?_append_left hp]
    rw [hkey]
  · simp only [createOp, prepareInjectionRefOp, deliverRefOp, dictSet]
    have hne : p.dictId ≠ w.length := by omega
    have hkey : dictGet ((w ++ [dictGet w p.dictId]).set p.dictId
        (regSet (dictGet (w ++ [dictGet w p.dictId]) p.dictId) t' i)) w.length
        = dictGet (w ++ [dictGet w p.dictId]) w.length := by
      simp [dictGet, List.getD_eq_getElem?_getD, List.getElem?_set_ne hne]
    rw [hkey]

/-- Witness for C5: one parent injector (dict 0 binding token 0 to
`fixed 1`); branching and re-binding token 0 in the child leaves the
parent's delivery result (and cache evolution) unchanged. -/
theorem c5_witness :
    deliverRefOp
        (prepareInjectionRefOp
          (createOp [[(Token.plain 0, Injection.value (Value.fixed 1))]] ⟨0, []⟩).1
          (createOp [[(Token.plain 0, Injection.value (Value.fixed 1))]] ⟨0, []⟩).2
          (Token.plain 0) (.injection (Injection.value (Value.fixed 2)))).2
        ⟨0, []⟩ (Token.plain 0) true 2
      = deliverRefOp [[(Token.plain 0, Injection.value (Value.fixed 1))]] ⟨0, []⟩
          (Token.plain 0) true 2 :=
  (c5_branch_isolation [[(Token.plain 0, Injection.value (Value.fixed 1))]] ⟨0, []⟩
    (by decide) (Token.plain 0) (Injection.value (Value.fixed 2))
    (Token.plain 0) true 2).2.1

/-! ### Container freshness (claim C6) -/

/-- Successful plans contain no `None` deliver entries (those only arise
in the dead non-strict placeholder branch, which raises before the plan
is returned). -/
theorem findPathAux_ok_steps (reg : Registry) (s : Bool) :
    ∀ (fuel : Nat) (Q : List Token) (path P : List Step),
      findPathAux reg s fuel Q path = some (Except.ok P) →
      (∀ st ∈ path, st.2.isSome) → ∀ st ∈ P, st.2.isSome := by
  intro fuel
  induction fuel with
  | zero =>
    intro Q path P h hall
    cases Q with
    | nil =>
      rw [findPathAux_nil] at h
      have : path = P := by simpa using h
      subst this
      exact hall
    | cons t q => simp [findPathAux] at h
  | succ f ih =>
    intro Q path P h hall
    cases Q with
    | nil =>
      rw [findPathAux_nil] at h
      have : path = P := by simpa using h
      subst this
      exact hall
    | cons t q =>
      cases hf : findInjection reg t with
      | none =>
        simp only [findPathAux, hf] at h
        cases s <;> simp at h
      | some inj =>
        simp only [findPathAux, hf] at h
        refine ih _ _ _ h ?_
        intro st hst
        rcases List.mem_append.mp hst with h1 | h1
        · exact hall st h1
        · rcases List.mem_singleton.mp h1 with rfl
          simp

/-- Sequential composition for the allocation-instrumented executor. -/
theorem execStepsA_append :
    ∀ (A B : List Step) (vs : List AValue) (i : Nat) (s : Store),
      execStepsA (A ++ B) vs i s
        = (execStepsA A vs i s).bind (fun o => execStepsA B o.1 o.2.1 o.2.2) := by
  intro A
  induction A with
  | nil => intro B vs i s; simp [execStepsA, Except.bind]
  | cons st A ih =>
    intro B vs i s
    obtain ⟨argn, d⟩ := st
    cases d with
    | none => simp [execStepsA, Except.bind]
    | some inj =>
      simp only [List.cons_append, execStepsA]
      exact ih B _ _ _

/-- The allocation-instrumented executor never reads the container heap:
its run from an arbitrary heap is the run from the empty heap with the
newly written entries prepended onto the starting heap. -/
theorem execStepsA_mem (steps : List Step) :
    ∀ (vs : List AValue) (i n : Nat) (m : List (Nat × (SeqKind × List AValue))),
      execStepsA steps vs i ⟨n, m⟩
        = match execStepsA steps vs i ⟨n, []⟩ with
          | Except.error e => Except.error e
          | Except.ok (vs', i', s') => Except.ok (vs', i', ⟨s'.next, s'.mem ++ m⟩) := by
  induction steps with
  | nil => intro vs i n m; simp [execStepsA]
  | cons st rest ih =>
    intro vs i n m
    obtain ⟨argn, d⟩ := st
    cases d with
    | none => simp [execStepsA]
    | some inj =>
      cases inj with
      | value v => simp only [execStepsA, deliverA]; rw [ih]
      | lam ret => simp only [execStepsA, deliverA]; rw [ih]
      | cls c => simp only [execStepsA, deliverA]; rw [ih]
      | func f => simp only [execStepsA, deliverA]; rw [ih]
      | seq kind ts =>
        simp only [execStepsA, deliverA]
        rw [ih _ _ (n + 1) ((n, (kind, ((vs.drop i).take argn).reverse)) :: m),
            ih _ _ (n + 1) [(n, (kind, ((vs.drop i).take argn).reverse))]]
        cases execStepsA rest (vs ++ [AValue.ref n]) (i + argn) ⟨n + 1, []⟩ with
        | error e => simp
        | ok o =>
          obtain ⟨vs', i', s'⟩ := o
          simp [List.append_assoc]

/-- The allocation counter never decreases across an executor run. -/
theorem execStepsA_next_le :
    ∀ (steps : List Step) (vs : List AValue) (i : Nat) (s : Store)
      (out : List AValue × Nat × Store),
      execStepsA steps vs i s = Except.ok out → s.next ≤ out.2.2.next := by
  intro steps
  induction steps with
  | nil =>
    intro vs i s out h
    simp only [execStepsA, Except.ok.injEq] at h
    subst h
    exact Nat.le_refl _
  | cons st rest ih =>
    intro vs i s out h
    obtain ⟨argn, d⟩ := st
    cases d with
    | none => simp [execStepsA] at h
    | some inj =>
      cases inj with
      | value v => exact ih _ _ _ _ (by simpa [execStepsA, deliverA] using h)
      | lam ret => exact ih _ _ _ _ (by simpa [execStepsA, deliverA] using h)
      | cls c => exact ih _ _ _ _ (by simpa [execStepsA, deliverA] using h)
      | func f => exact ih _ _ _ _ (by simpa [execStepsA, deliverA] using h)
      | seq kind ts =>
        have h' := ih _ _ _ _ (by simpa [execStepsA, deliverA] using h)
        simp at h'
        omega

/-- A plan whose deliver entries are all present always executes (the
allocation-instrumented walk cannot fail). -/
theorem execStepsA_total :
    ∀ (steps : List Step) (vs : List AValue) (i : Nat) (s : Store),
      (∀ st ∈ steps, st.2.isSome) →
      ∃ out, execStepsA steps vs i s = Except.ok out := by
  intro steps
  induction steps with
  | nil => intro vs i s _; exact ⟨_, rfl⟩
  | cons st rest ih =>
    intro vs i s hall
    obtain ⟨argn, d⟩ := st
    cases d with
    | none =>
      have := hall (argn, Option.none) (by simp)
      simp at this
    | some inj =>
      obtain ⟨out, hout⟩ := ih (vs ++ [(deliverA inj (((vs.drop i).take argn).reverse) s).1])
        (i + argn) (deliverA inj (((vs.drop i).take argn).reverse) s).2
        (fun st hst => hall st (List.mem_cons_of_mem _ hst))
      refine ⟨out, ?_⟩
      simp only [execStepsA]
      rw [← hout]

/-- A successful plan for a configured token starts with that token's own
step. -/
theorem findPath_head (reg : Registry) (t : Token) (s : Bool) (fuel : Nat)
    (P : List Step) (inj : Injection) (hinj : findInjection reg t = some inj)
    (h : findPath reg t s fuel = some (Except.ok P)) :
    ∃ P', P = (inj.ingredients.length, some inj) :: P' := by
  cases fuel with
  | zero => simp [findPath, findPathAux] at h
  | succ f =>
    unfold findPath at h
    have hstep : findPathAux reg s (f + 1) [t] []
        = findPathAux reg s f ([] ++ inj.ingredients)
            ([] ++ [(inj.ingredients.length, some inj)]) := by
      simp only [findPathAux, hinj]
    rw [hstep, findPathAux_acc] at h
    cases hrec : findPathAux reg s f ([] ++ inj.ingredients) [] with
    | none => rw [hrec] at h; simp at h
    | some r =>
      rw [hrec] at h
      cases r with
      | error e => simp [Except.map] at h
      | ok P' =>
        simp only [Option.map_some', Except.map, Option.some.injEq] at h
        exact ⟨P', by rw [← Except.ok.inj h]; simp⟩

/-- Shape of the allocation-instrumented run when the root token is bound
to a `SequenceInjection`: the delivered value is a container allocated at
a fresh address `a` (at least the starting counter), holding the
element-argument list built for the root, and the run writes the same
entries regardless of what the starting heap contains. -/
theorem execA_path_shape (reg : Registry) (tok : Token) (kind : SeqKind)
    (ts : List Token) (strict : Bool) (fuel : Nat) (path : List Step)
    (hbind : findInjection reg tok = some (Injection.seq kind ts))
    (hfp : findPath reg tok strict fuel = some (Except.ok path)) (n : Nat) :
    ∃ (a : Nat) (args : List AValue) (newE : List (Nat × (SeqKind × List AValue)))
      (vs : List AValue) (idx : Nat),
      n ≤ a ∧
      ∀ m, execStepsA path.reverse [] 0 ⟨n, m⟩
        = Except.ok (vs ++ [AValue.ref a], idx,
            ⟨a + 1, ((a, (kind, args)) :: newE) ++ m⟩) := by
  obtain ⟨P', rfl⟩ := findPath_head reg tok strict fuel path _ hbind hfp
  have hsome : ∀ st ∈ P', st.2.isSome := by
    have hall := findPathAux_ok_steps reg strict fuel [tok] [] _ hfp (by simp)
    intro st hst
    exact hall st (List.mem_cons_of_mem _ hst)
  obtain ⟨out, hout⟩ := execStepsA_total P'.reverse [] 0 ⟨n, []⟩
    (fun st hst => hsome st (List.mem_reverse.mp hst))
  obtain ⟨vs₁, i₁, s₁⟩ := out
  have hnle : n ≤ s₁.next := execStepsA_next_le _ _ _ _ _ hout
  refine ⟨s₁.next, ((vs₁.drop i₁).take ts.length).reverse, s₁.mem, vs₁,
    i₁ + ts.length, hnle, ?_⟩
  intro m
  rw [show ((Injection.seq kind ts).ingredients.length,
        some (Injection.seq kind ts)) :: P' = [(ts.length, some (Injection.seq kind ts))] ++ P'
      from rfl]
  rw [List.reverse_append]
  rw [execStepsA_append]
  rw [execStepsA_mem P'.reverse [] 0 n m, hout]
  simp only [Except.bind]
  simp [execStepsA, deliverA, List.append_assoc]

/-! ### Claim C6 -/

/-- C6: each delivery of a Sequence-bound token builds a *new* container
of the bound kind from the resolved element values: successive deliveries
return containers at distinct addresses, and after arbitrarily mutating
the first container, the second delivery's container contents (kind,
elements, hence length) are exactly what an unmutated second delivery
would have produced. -/
theorem c6_sequence_fresh_container (reg : Registry) (tok : Token) (kind : SeqKind)
    (ts : List Token) (strict : Bool) (fuel : Nat) (path : List Step)
    (n : Nat) (m : List (Nat × (SeqKind × List AValue)))
    (junk : SeqKind × List AValue)
    (hbind : findInjection reg tok = some (Injection.seq kind ts))
    (hfp : findPath reg tok strict fuel = some (Except.ok path)) :
    ∃ (a₁ a₂ : Nat) (args₂ : List AValue) (s₁ s₂ s₂' : Store),
      deliverOnceA reg tok strict fuel ⟨n, m⟩
        = some (Except.ok (AValue.ref a₁, s₁)) ∧
      deliverOnceA reg tok strict fuel (storeMutate s₁ a₁ junk)
        = some (Except.ok (AValue.ref a₂, s₂)) ∧
      deliverOnceA reg tok strict fuel s₁
        = some (Except.ok (AValue.ref a₂, s₂')) ∧
      a₂ ≠ a₁ ∧
      memLookup s₂.mem a₂ = some (kind, args₂) ∧
      memLookup s₂'.mem a₂ = some (kind, args₂) := by
  obtain ⟨a₁, args₁, newE₁, vs₁, idx₁, hle₁, hrun₁⟩ :=
    execA_path_shape reg tok kind ts strict fuel path hbind hfp n
  obtain ⟨a₂, args₂, newE₂, vs₂, idx₂, hle₂, hrun₂⟩ :=
    execA_path_shape reg tok kind ts strict fuel path hbind hfp (a₁ + 1)
  refine ⟨a₁, a₂, args₂,
    ⟨a₁ + 1, ((a₁, (kind, args₁)) :: newE₁) ++ m⟩,
    ⟨a₂ + 1, ((a₂, (kind, args₂)) :: newE₂)
      ++ ((a₁, junk) :: (((a₁, (kind, args₁)) :: newE₁) ++ m))⟩,
    ⟨a₂ + 1, ((a₂, (kind, args₂)) :: newE₂) ++ (((a₁, (kind, args₁)) :: newE₁) ++ m)⟩,
    ?_, ?_, ?_, by omega, by simp [memLookup], by simp [memLookup]⟩
  · simp only [deliverOnceA, hfp, runPathA, hrun₁ m, List.getLast?_concat]
  · simp only [storeMutate, deliverOnceA, hfp, runPathA,
      hrun₂ ((a₁, junk) :: (((a₁, (kind, args₁)) :: newE₁) ++ m)), List.getLast?_concat]
  · simp only [deliverOnceA, hfp, runPathA,
      hrun₂ (((a₁, (kind, args₁)) :: newE₁) ++ m), List.getLast?_concat]

/-- Witness for C6 at the test suite's two-element payment-services list:
`List[PaymentService] → [GooglePay, ApplePay]` with both element classes
registered. -/
theorem c6_witness :
    ∃ (a₁ a₂ : Nat) (args₂ : List AValue) (s₁ s₂ s₂' : Store),
      deliverOnceA [(Token.listOf (Token.plain 9), Injection.seq SeqKind.list [Token.plain 1, Token.plain 2]),
          (Token.plain 1, Injection.cls ⟨21, true, []⟩),
          (Token.plain 2, Injection.cls ⟨22, true, []⟩)]
        (Token.listOf (Token.plain 9)) true 5 ⟨0, []⟩
        = some (Except.ok (AValue.ref a₁, s₁)) ∧
      deliverOnceA [(Token.listOf (Token.plain 9), Injection.seq SeqKind.list [Token.plain 1, Token.plain 2]),
          (Token.plain 1, Injection.cls ⟨21, true, []⟩),
          (Token.plain 2, Injection.cls ⟨22, true, []⟩)]
        (Token.listOf (Token.plain 9)) true 5 (storeMutate s₁ a₁ (SeqKind.list, []))
        = some (Except.ok (AValue.ref a₂, s₂)) ∧
      deliverOnceA [(Token.listOf (Token.plain 9), Injection.seq SeqKind.list [Token.plain 1, Token.plain 2]),
          (Token.plain 1, Injection.cls ⟨21, true, []⟩),
          (Token.plain 2, Injection.cls ⟨22, true, []⟩)]
        (Token.listOf (Token.plain 9)) true 5 s₁
        = some (Except.ok (AValue.ref a₂, s₂')) ∧
      a₂ ≠ a₁ ∧
      memLookup s₂.mem a₂ = some (SeqKind.list, args₂) ∧
      memLookup s₂'.mem a₂ = some (SeqKind.list, args₂) :=
  c6_sequence_fresh_container
    [(Token.listOf (Token.plain 9), Injection.seq SeqKind.list [Token.plain 1, Token.plain 2]),
     (Token.plain 1, Injection.cls ⟨21, true, []⟩),
     (Token.plain 2, Injection.cls ⟨22, true, []⟩)]
    (Token.listOf (Token.plain 9)) SeqKind.list [Token.plain 1, Token.plain 2] true 5
    [(2, some (Injection.seq SeqKind.list [Token.plain 1, Token.plain 2])),
     (0, some (Injection.cls ⟨21, true, []⟩)),
     (0, some (Injection.cls ⟨22, true, []⟩))]
    0 [] (SeqKind.list, []) rfl rfl

/-! ### Claim C7 -/

/-- C7 (amended): for a plain (non-lambda, non-method) function under a
plain token, `prepare` raises `PreparationError` if and only if the
function has positional parameters and its `__annotations__` mapping is
*empty* — a return annotation alone already suppresses the error, which
is the correction to the claim's "no type annotations on any of the
positional parameters".  Otherwise it registers a `FunctionInjection`
whose ingredients are the annotated-entry tokens excluding `"return"`, in
declaration order. -/
theorem c7_plain_function_prepare (env : Nat → PyClass) (id : Nat) (f : PyFunction) :
    (inferInjection env (Token.plain id) (.function f)
        = Except.error PyError.preparationError
      ↔ f.params ≠ [] ∧ f.anns = []) ∧
    (¬(f.params ≠ [] ∧ f.anns = []) →
      inferInjection env (Token.plain id) (.function f) = Except.ok (.func f)) ∧
    (Injection.func f).ingredients
      = (f.anns.filter (fun p => p.1 ≠ "return")).map (fun p => p.2) := by
  have hcnd : (f.params.length ≠ 0 ∧ f.anns.length = 0)
      ↔ (f.params ≠ [] ∧ f.anns = []) := by
    constructor
    · rintro ⟨h1, h2⟩
      exact ⟨fun hh => h1 (by simp [hh]), List.length_eq_zero.mp h2⟩
    · rintro ⟨h1, h2⟩
      exact ⟨fun hh => h1 (List.length_eq_zero.mp hh), by simp [h2]⟩
  refine ⟨?_, ?_, rfl⟩
  · by_cases hc : f.params.length ≠ 0 ∧ f.anns.length = 0
    · simp only [inferInjection, if_pos hc]
      simp [hcnd.mp hc]
    · constructor
      · intro h
        simp [inferInjection] at h
        exact h
      · intro hcl
        exact absurd (hcnd.mpr hcl) hc
  · intro hncl
    have hnc : ¬(f.params.length ≠ 0 ∧ f.anns.length = 0) :=
      fun hh => hncl (hcnd.mp hh)
    simp only [inferInjection, if_neg hnc]

/-- Counterexample to C7 as stated: `def f(a) -> T` has a positional
parameter with no annotation on it (so the claim demands
`PreparationError`), but `len(f.__annotations__)` is 1 because of the
return annotation, so the source registers it without raising. -/
theorem c7_counterexample :
    claimedFunctionRejected ⟨0, ["a"], [("return", Token.plain 7)]⟩ ∧
    inferInjection (fun _ => ⟨0, false, []⟩) (Token.plain 0)
        (.function ⟨0, ["a"], [("return", Token.plain 7)]⟩)
      = Except.ok (.func ⟨0, ["a"], [("return", Token.plain 7)]⟩) := by
  constructor
  · decide
  · rfl

/-- Witness for C7 at a function with one annotated parameter (not
rejected; registered as a Function injection). -/
theorem c7_witness :
    inferInjection (fun _ => ⟨0, false, []⟩) (Token.plain 0)
        (.function ⟨1, ["s"], [("s", Token.plain 2)]⟩)
      = Except.ok (.func ⟨1, ["s"], [("s", Token.plain 2)]⟩) :=
  (c7_plain_function_prepare (fun _ => ⟨0, false, []⟩) 0
    ⟨1, ["s"], [("s", Token.plain 2)]⟩).2.1 (by simp)

/-! ### Claim C8 -/

/-- C8 (amended): a Class injection's ingredients are empty when the
class has no custom constructor, and otherwise are the tokens of the
constructor's annotation entries except `"return"`, in declaration order
— which coincides with the claim's "each constructor parameter excluding
self" exactly when `self` is (as conventionally) unannotated; `deliver`
constructs the class with the arguments positionally. -/
theorem c8_class_injection (c : PyClass) (args : List Value) :
    (c.hasCustomInit = false → (Injection.cls c).ingredients = []) ∧
    (Injection.cls c).ingredients
      = (if c.hasCustomInit then
          (c.initAnns.filter (fun p => p.1 ≠ "return")).map (fun p => p.2)
        else []) ∧
    ("self" ∉ c.initAnns.map (fun p => p.1) →
      (Injection.cls c).ingredients = claimedClassIngredients c) ∧
    (Injection.cls c).deliverFn args = Value.obj c.tag args := by
  refine ⟨?_, rfl, ?_, rfl⟩
  · intro h
    simp [Injection.ingredients, classIngredients, h]
  · intro hself
    simp only [Injection.ingredients, classIngredients, claimedClassIngredients]
    cases c.hasCustomInit with
    | false => simp
    | true =>
      simp only [if_pos]
      congr 1
      apply List.filter_congr
      intro p hp
      have : p.1 ≠ "self" := by
        intro hh
        exact hself (by rw [← hh]; exact List.mem_map_of_mem _ hp)
      simp [this]

/-- Counterexample to C8 as stated: a constructor whose `self` parameter
is explicitly annotated.  The claim excludes `self`, but the source
filters only `"return"` out of `__init__.__annotations__`, so the
annotated `self` token is included as an ingredient. -/
theorem c8_counterexample :
    claimedClassIngredients ⟨3, true, [("self", Token.plain 5), ("x", Token.plain 7)]⟩
      = [Token.plain 7] ∧
    (Injection.cls ⟨3, true, [("self", Token.plain 5), ("x", Token.plain 7)]⟩).ingredients
      = [Token.plain 5, Token.plain 7] := by
  constructor <;> rfl

/-- Witness for C8 at a conventional class (unannotated `self`, two
annotated parameters): the source's ingredients agree with the claim's
reading. -/
theorem c8_witness :
    (Injection.cls ⟨3, true, [("a", Token.plain 5), ("b", Token.plain 7)]⟩).ingredients
      = claimedClassIngredients ⟨3, true, [("a", Token.plain 5), ("b", Token.plain 7)]⟩ :=
  (c8_class_injection ⟨3, true, [("a", Token.plain 5), ("b", Token.plain 7)]⟩ []).2.2.1
    (by decide)

/-! ### Claim C10 -/

/-- C10: if `prepare` or `prepare_injection` raises `PreparationError`
(or any exception), the injector object is left completely unchanged: all
validation happens before `self._injections[token] = injection` runs. -/
theorem c10_prepare_error_frame (s0 : Injector) (tok : Token)
    (env : Nat → PyClass) (v : PySource) (e : PyError) :
    ((Injector.prepare env s0 tok v).1 = Except.error e →
      (Injector.prepare env s0 tok v).2 = s0) ∧
    ((s0.prepare_injection tok v).1 = Except.error e →
      (s0.prepare_injection tok v).2 = s0) := by
  constructor
  · intro h
    unfold Injector.prepare at h ⊢
    cases hinf : inferInjection env tok v with
    | error e' => simp [hinf]
    | ok i =>
      rw [hinf] at h
      simp [Injector.prepare_injection] at h
  · intro h
    unfold Injector.prepare_injection at h ⊢
    cases v <;> simp_all

/-- Witness for C10: preparing a token with a lambda that takes an
argument raises `PreparationError` and leaves the fresh injector
unchanged. -/
theorem c10_witness :
    (Injector.prepare (fun _ => ⟨0, false, []⟩) ⟨[], []⟩ (Token.plain 0)
        (.pylambda 1 Value.none)).2 = (⟨[], []⟩ : Injector) :=
  (c10_prepare_error_frame ⟨[], []⟩ (Token.plain 0) (fun _ => ⟨0, false, []⟩)
    (.pylambda 1 Value.none) PyError.preparationError).1 rfl
